import Mathlib

set_option maxHeartbeats 1000000

namespace Cs6120

/-! # Shallow embedding of the cs6120 compiler middle-end

IR data model from `bril_rs` as used by the repository, and the CFG data
structure from `src/lesson2/build-cfg/src/lib.rs`.  Machine integers (`i64`)
are modelled as `Int`; two's-complement wrapping is made explicit where the
code performs arithmetic.  Floats are carried by their printed form, which is
the only way the analysed passes inspect them.  `slotmap` keys are modelled as
`Nat` handed out by a counter; `SlotMap`/`SecondaryMap` are association lists
kept in ascending key order, matching the key-ordered iteration of slotmap.
-/

/-- `bril_rs::Type`. -/
inductive Ty where
  | int
  | bool
  | float
  | char
  | ptr (inner : Ty)
deriving DecidableEq

/-- `bril_rs::Literal`. -/
inductive Lit where
  | int (n : Int)
  | bool (b : Bool)
  | float (printed : String)
  | char (c : Char)
deriving DecidableEq

/-- `bril_rs::ValueOps` (the constructors the analysed passes mention). -/
inductive ValueOp where
  | add
  | sub
  | mul
  | div
  | eq
  | lt
  | gt
  | le
  | ge
  | not
  | and
  | or
  | id
  | call
  | alloc
  | get
  | undef
  | fadd
  | fmul
  | fsub
  | fdiv
  | feq
  | ceq
deriving DecidableEq

/-- `bril_rs::EffectOps`. -/
inductive EffectOp where
  | jmp
  | br
  | ret
  | print
  | nop
  | set
  | store
  | free
deriving DecidableEq

/-- `bril_rs::Instruction`.  Source positions are dropped: they are inert
payload for every claim considered here. -/
inductive Instr where
  | const (dest : String) (ty : Ty) (value : Lit)
  | value (dest : String) (op : ValueOp) (args : List String)
      (funcs : List String) (labels : List String) (ty : Ty)
  | effect (op : EffectOp) (args : List String)
      (funcs : List String) (labels : List String)
deriving DecidableEq

/-- `build_cfg::LabeledExit`. -/
inductive LabeledExit where
  | fallthrough
  | unconditional (label : String)
  | conditional (condition : String) (ifTrueLabel : String)
      (ifFalseLabel : String)
  | ret (arg : Option String)
deriving DecidableEq

/-- `build_cfg::Exit` (label-resolved). -/
inductive Exit where
  | fallthrough (dest : Option Nat)
  | unconditional (dest : Nat)
  | conditional (condition : String) (ifTrue : Nat) (ifFalse : Nat)
  | ret (arg : Option String)
deriving DecidableEq

/-- `build_cfg::BasicBlock`. -/
structure BasicBlock where
  isEntry : Bool := false
  label : Option String := none
  instructions : List Instr := []
  exit : LabeledExit := .fallthrough
deriving DecidableEq

/-- `build_cfg::FunctionCfg`.  `nextIdx` models the slotmap's fresh-key
allocation: every live key is below it. -/
structure FunctionCfg where
  name : String := ""
  arguments : List (String × Ty) := []
  returnType : Option Ty := none
  entry : Nat := 0
  nextIdx : Nat := 0
  vertices : List (Nat × BasicBlock) := []
  edges : List (Nat × Exit) := []
  revEdges : List (Nat × List Nat) := []
deriving DecidableEq

/-- Lookup in an association list (first matching key wins). -/
def alistGet? {κ α : Type} [DecidableEq κ] (l : List (κ × α)) (k : κ) :
    Option α :=
  (l.find? (fun p => decide (p.1 = k))).map (·.2)

/-- Replace the value at `k`, or append `(k, v)` if absent (the semantics of
`HashMap::insert` / `SecondaryMap::insert`, for maps whose keys are unique). -/
def alistInsert {κ α : Type} [DecidableEq κ] (l : List (κ × α)) (k : κ)
    (v : α) : List (κ × α) :=
  if l.any (fun p => decide (p.1 = k)) then
    l.map (fun p => if p.1 = k then (p.1, v) else p)
  else
    l ++ [(k, v)]

/-- Remove the entry at `k` (`HashMap::remove`). -/
def alistRemove {κ α : Type} [DecidableEq κ] (l : List (κ × α)) (k : κ) :
    List (κ × α) :=
  l.filter (fun p => decide (p.1 ≠ k))

/-- Stable insertion into a sorted list: `a` goes in front of the first
element it compares `le` to. -/
def orderedInsertB {α : Type} (le : α → α → Bool) (a : α) :
    List α → List α
  | [] => [a]
  | b :: l => if le a b then a :: b :: l else b :: orderedInsertB le a l

/-- Stable insertion sort.  A stable comparison sort computes the same list
as Rust's (stable) `slice::sort`, and on lists without equal keys the same
list as `sort_unstable`; it is used here for both because, unlike
`List.mergeSort`, it is structurally recursive and so evaluates inside the
kernel. -/
def insertionSortB {α : Type} (le : α → α → Bool) : List α → List α
  | [] => []
  | a :: l => orderedInsertB le a (insertionSortB le l)

/-- `FunctionCfg::vertices` lookup (`self.vertices[idx]`). -/
def FunctionCfg.getVertex (cfg : FunctionCfg) (k : Nat) : Option BasicBlock :=
  alistGet? cfg.vertices k

/-- `FunctionCfg::edges` lookup (`self.edges[idx]`). -/
def FunctionCfg.getEdge (cfg : FunctionCfg) (k : Nat) : Option Exit :=
  alistGet? cfg.edges k

/-- `FunctionCfg::predecessors`: `rev_edges.get(block)` with `[]` for a
missing entry. -/
def FunctionCfg.predecessors (cfg : FunctionCfg) (k : Nat) : List Nat :=
  (alistGet? cfg.revEdges k).getD []

/-- The successor list determined by a resolved exit (the `match` inside
`FunctionCfg::successors`). -/
def exitSuccs : Exit → List Nat
  | .fallthrough dest => dest.toList
  | .unconditional dest => [dest]
  | .conditional _ ifTrue ifFalse => [ifTrue, ifFalse]
  | .ret _ => []

/-- `FunctionCfg::successors`.  The Rust indexes `self.edges[block]` and
would abort on a missing edge; a missing edge yields `[]` here, which no
theorem below relies on. -/
def FunctionCfg.successors (cfg : FunctionCfg) (k : Nat) : List Nat :=
  match cfg.getEdge k with
  | some e => exitSuccs e
  | none => []

/-- `FunctionCfg::add_block`: insert with a fresh key. -/
def FunctionCfg.addBlock (cfg : FunctionCfg) (block : BasicBlock) :
    FunctionCfg × Nat :=
  ({ cfg with
      vertices := cfg.vertices ++ [(cfg.nextIdx, block)]
      nextIdx := cfg.nextIdx + 1 }, cfg.nextIdx)

/-! ## `src/lesson2/build-cfg/src/lib.rs`: builder and edge primitives -/

/-- `bril_rs::Code`: a label or an instruction. -/
inductive Code where
  | label (name : String)
  | instr (i : Instr)
deriving DecidableEq

/-- `FunctionCfgBuilder`. -/
structure FunctionCfgBuilder where
  cfg : FunctionCfg
  entryIsInit : Bool
  currentBlock : BasicBlock
  labelsToBlocks : List (String × Nat)
  previousIdx : Option Nat
  inputBlockOrder : List (Nat × Nat)

/-- `FunctionCfgBuilder::new`. -/
def FunctionCfgBuilder.new (name : String) (arguments : List (String × Ty))
    (returnType : Option Ty) : FunctionCfgBuilder :=
  { cfg := { name := name, arguments := arguments, returnType := returnType }
    entryIsInit := false
    currentBlock := {}
    labelsToBlocks := []
    previousIdx := none
    inputBlockOrder := [] }

/-- `add_to_current`. -/
def FunctionCfgBuilder.addToCurrent (b : FunctionCfgBuilder)
    (instruction : Instr) : FunctionCfgBuilder :=
  { b with currentBlock := { b.currentBlock with
      instructions := b.currentBlock.instructions ++ [instruction] } }

/-- `set_current_label`. -/
def FunctionCfgBuilder.setCurrentLabel (b : FunctionCfgBuilder)
    (name : String) : FunctionCfgBuilder :=
  { b with currentBlock := { b.currentBlock with label := some name } }

/-- `set_current_exit` (its callers never pass `Fallthrough`, which the Rust
asserts). -/
def FunctionCfgBuilder.setCurrentExit (b : FunctionCfgBuilder)
    (exit : LabeledExit) : FunctionCfgBuilder :=
  { b with currentBlock := { b.currentBlock with exit := exit } }

/-- `mark_current_as_entry`. -/
def FunctionCfgBuilder.markCurrentAsEntry (b : FunctionCfgBuilder) :
    FunctionCfgBuilder :=
  { b with currentBlock := { b.currentBlock with isEntry := true } }

/-- `finish_current_and_start_new_block`. -/
def FunctionCfgBuilder.finishCurrent (b : FunctionCfgBuilder) :
    FunctionCfgBuilder :=
  let currentLabel := b.currentBlock.label
  let inserted := b.cfg.addBlock b.currentBlock
  let blockIdx := inserted.2
  let b := { b with cfg := inserted.1, currentBlock := {} }
  let b :=
    if !b.entryIsInit then
      { b with cfg := { b.cfg with entry := blockIdx }, entryIsInit := true }
    else
      b
  let b :=
    match b.previousIdx with
    | some previousIdx =>
      { b with inputBlockOrder :=
          alistInsert b.inputBlockOrder previousIdx blockIdx }
    | none => b
  let b := { b with previousIdx := some blockIdx }
  match currentLabel with
  | some label =>
    { b with labelsToBlocks := alistInsert b.labelsToBlocks label blockIdx }
  | none => b

/-- One iteration of the `build_cfg` instruction loop. -/
def buildStep (b : FunctionCfgBuilder) (code : Code) :
    Except String FunctionCfgBuilder :=
  match code with
  | .label name =>
    let b :=
      if !b.currentBlock.instructions.isEmpty
          || b.currentBlock.label.isSome then
        b.finishCurrent
      else
        b
    .ok (b.setCurrentLabel name)
  | .instr instruction =>
    match instruction with
    | .effect .jmp _ _ labels =>
      let b := b.addToCurrent instruction
      match labels with
      | [destinationLabel] =>
        .ok ((b.setCurrentExit
          (.unconditional destinationLabel)).finishCurrent)
      | _ => .error "Jump operation should take one label"
    | .effect .br args _ labels =>
      let b := b.addToCurrent instruction
      match args with
      | [condition] =>
        match labels with
        | [ifTrueLabel, ifFalseLabel] =>
          .ok ((b.setCurrentExit
            (.conditional condition ifTrueLabel ifFalseLabel)).finishCurrent)
        | _ => .error "Branch operation should take two labels"
      | _ => .error "Branch operation should take one condition argument"
    | .effect .ret args _ labels =>
      let b := b.addToCurrent instruction
      match args with
      | [] =>
        if labels.isEmpty then
          .ok ((b.setCurrentExit (.ret none)).finishCurrent)
        else
          .error "Return operation should take no labels"
      | [value] =>
        if labels.isEmpty then
          .ok ((b.setCurrentExit (.ret (some value))).finishCurrent)
        else
          .error "Return operation should take no labels"
      | _ => .error "Branch operation should take one condition argument"
    | other => .ok (b.addToCurrent other)

/-- `rev_edges.entry(target).or_default().push(pred)`. -/
def pushRev (rev : List (Nat × List Nat)) (target pred : Nat) :
    List (Nat × List Nat) :=
  match alistGet? rev target with
  | some l => alistInsert rev target (l ++ [pred])
  | none => alistInsert rev target [pred]

/-- The label-resolution loop of `FunctionCfgBuilder::finish`: walk the
blocks in key order, record each resolved exit, and mirror every forward
edge in the predecessor index. -/
def resolveExits (ltb : List (String × Nat)) (ibo : List (Nat × Nat)) :
    List (Nat × BasicBlock) → List (Nat × Exit) → List (Nat × List Nat) →
    Except String (List (Nat × Exit) × List (Nat × List Nat))
  | [], edges, rev => .ok (edges, rev)
  | (blockIdx, block) :: rest, edges, rev =>
    match block.exit with
    | .fallthrough =>
      match alistGet? ibo blockIdx with
      | some afterIdx =>
        resolveExits ltb ibo rest
          (edges ++ [(blockIdx, .fallthrough (some afterIdx))])
          (pushRev rev afterIdx blockIdx)
      | none =>
        resolveExits ltb ibo rest
          (edges ++ [(blockIdx, .fallthrough none)]) rev
    | .unconditional label =>
      match alistGet? ltb label with
      | some destination =>
        resolveExits ltb ibo rest
          (edges ++ [(blockIdx, .unconditional destination)])
          (pushRev rev destination blockIdx)
      | none => .error ("Unknown label " ++ label ++ " referenced")
    | .conditional condition ifTrueLabel ifFalseLabel =>
      match alistGet? ltb ifTrueLabel with
      | some ifTrueIdx =>
        match alistGet? ltb ifFalseLabel with
        | some ifFalseIdx =>
          resolveExits ltb ibo rest
            (edges ++ [(blockIdx,
              .conditional condition ifTrueIdx ifFalseIdx)])
            (pushRev (pushRev rev ifTrueIdx blockIdx) ifFalseIdx blockIdx)
        | none => .error ("Unknown label " ++ ifFalseLabel ++ " referenced")
      | none => .error ("Unknown label " ++ ifTrueLabel ++ " referenced")
    | .ret value =>
      resolveExits ltb ibo rest (edges ++ [(blockIdx, .ret value)]) rev

/-- The pruning step of `FunctionCfgBuilder::finish`: keep the entry and
every block with a non-empty predecessor list, restrict `edges` and
`rev_edges` to the survivors, and filter the predecessor lists. -/
def pruneCfg (cfg : FunctionCfg) : FunctionCfg :=
  let keep : Nat → Bool := fun idx =>
    idx == cfg.entry || !((alistGet? cfg.revEdges idx).getD []).isEmpty
  let vertices := cfg.vertices.filter (fun p => keep p.1)
  let keys := vertices.map Prod.fst
  { cfg with
      vertices := vertices
      edges := cfg.edges.filter (fun p => keys.contains p.1)
      revEdges := (cfg.revEdges.filter (fun p => keys.contains p.1)).map
        (fun p => (p.1, p.2.filter (fun x => keys.contains x))) }

/-- `FunctionCfgBuilder::finish`. -/
def builderFinish (b : FunctionCfgBuilder) (prune : Bool) :
    Except String FunctionCfg := do
  let resolved ← resolveExits b.labelsToBlocks b.inputBlockOrder
    b.cfg.vertices [] []
  let cfg := { b.cfg with edges := resolved.1, revEdges := resolved.2 }
  return if prune then pruneCfg cfg else cfg

/-- `build_cfg`. -/
def buildCfg (name : String) (arguments : List (String × Ty))
    (returnType : Option Ty) (instrs : List Code) (prune : Bool) :
    Except String FunctionCfg := do
  let builder := (FunctionCfgBuilder.new name arguments
    returnType).markCurrentAsEntry
  let builder ← instrs.foldlM buildStep builder
  let builder := builder.finishCurrent
  builderFinish builder prune

/-- `instructions.last_mut()`: replace the final instruction, `none` when
the block is empty (the Rust `expect`s). -/
def setLast (l : List Instr) (a : Instr) : Option (List Instr) :=
  match l with
  | [] => none
  | _ => some (l.dropLast ++ [a])

/-- `FunctionCfg::reorient_edge`.  `none` models the panics (missing
lookups, an unlabeled destination, an empty instruction list, or a
`LabeledExit`/`Exit` mismatch); an `Exit::Return` start is a no-op. -/
def FunctionCfg.reorientEdge (cfg : FunctionCfg)
    (startBlock oldEndBlock endBlock : Nat) : Option FunctionCfg := do
  let startEdge ← cfg.getEdge startBlock
  match startEdge with
  | .ret _ => some cfg
  | _ => do
    let endData ← cfg.getVertex endBlock
    let endLabel ← endData.label
    let oldRev ← alistGet? cfg.revEdges oldEndBlock
    let rev := alistInsert cfg.revEdges oldEndBlock
      (oldRev.filter (fun predecessor => decide (predecessor ≠ startBlock)))
    let endRev := (alistGet? rev endBlock).getD []
    let rev :=
      if startBlock ∈ endRev then
        alistInsert rev endBlock endRev
      else
        alistInsert rev endBlock (endRev ++ [startBlock])
    let cfg := { cfg with revEdges := rev }
    let startData ← cfg.getVertex startBlock
    match startData.exit with
    | .unconditional _ =>
      let newInstrs ← setLast startData.instructions
        (.effect .jmp [] [] [endLabel])
      some { cfg with
        vertices := alistInsert cfg.vertices startBlock
          { startData with instructions := newInstrs }
        edges := alistInsert cfg.edges startBlock
          (.unconditional endBlock) }
    | .conditional _ ifTrueLabel ifFalseLabel =>
      match startEdge with
      | .conditional condition ifTrue ifFalse =>
        let choice :=
          if oldEndBlock = ifTrue then
            (endLabel, ifFalseLabel, endBlock, ifFalse)
          else
            (ifTrueLabel, endLabel, ifTrue, endBlock)
        let newInstrs ← setLast startData.instructions
          (.effect .br [condition] [] [choice.1, choice.2.1])
        some { cfg with
          vertices := alistInsert cfg.vertices startBlock
            { startData with instructions := newInstrs }
          edges := alistInsert cfg.edges startBlock
            (.conditional condition choice.2.2.1 choice.2.2.2) }
      | _ => none
    | _ => some cfg

/-- `FunctionCfg::set_unconditional_edge`.  `none` models the panics. -/
def FunctionCfg.setUnconditionalEdge (cfg : FunctionCfg)
    (startBlock endBlock : Nat) : Option FunctionCfg := do
  let startData ← cfg.getVertex startBlock
  let endData ← cfg.getVertex endBlock
  let endLabel ← endData.label
  let newInstrs ←
    match startData.exit with
    | .fallthrough =>
      some (startData.instructions ++ [Instr.effect .jmp [] [] [endLabel]])
    | .unconditional _ =>
      setLast startData.instructions (.effect .jmp [] [] [endLabel])
    | _ => none
  let cfg := { cfg with
    vertices := alistInsert cfg.vertices startBlock
      { startData with
          instructions := newInstrs
          exit := .unconditional endLabel }
    edges := alistInsert cfg.edges startBlock (.unconditional endBlock) }
  let rev :=
    if (alistGet? cfg.revEdges endBlock).isSome then
      cfg.revEdges
    else
      cfg.revEdges ++ [(endBlock, [])]
  let cur := (alistGet? rev endBlock).getD []
  let rev :=
    if startBlock ∈ cur then rev
    else alistInsert rev endBlock (cur ++ [startBlock])
  some { cfg with revEdges := rev }

/-- Soundness direction of the predecessor-index invariant: every forward
edge is mirrored in `rev_edges`. -/
def RevSound (cfg : FunctionCfg) : Prop :=
  ∀ p b : Nat, b ∈ cfg.successors p → p ∈ cfg.predecessors b

/-- Decidable check implying `RevSound`. -/
def revSoundCheck (cfg : FunctionCfg) : Bool :=
  cfg.edges.all (fun pe =>
    (exitSuccs pe.2).all (fun b => (cfg.predecessors b).contains pe.1))

/-! ## `src/lesson3/tdce/src/main.rs` -/

/-- The args collected by the first loop of `trivial_dead_code_elimination`:
`Value` and `Effect` instructions contribute their `args`. -/
def instrUses : Instr → List String
  | .const _ _ _ => []
  | .value _ _ args _ _ _ => args
  | .effect _ args _ _ => args

/-- `used_variables`, accumulated over every instruction of every block. -/
def usedVariables (blocks : List (Nat × BasicBlock)) : List String :=
  blocks.flatMap (fun p => p.2.instructions.flatMap instrUses)

/-- The `retain` predicate of the sweep: keep `Constant`/`Value` whose `dest`
is used; keep every `Effect`. -/
def keepInstr (used : List String) : Instr → Bool
  | .const dest _ _ => used.contains dest
  | .value dest _ _ _ _ _ => used.contains dest
  | .effect _ _ _ _ => true

/-- `trivial_dead_code_elimination`: the global unused-destination sweep,
returning the rewritten blocks and the `changed` flag. -/
def trivialDeadCodeElimination (blocks : List (Nat × BasicBlock)) :
    List (Nat × BasicBlock) × Bool :=
  let used := usedVariables blocks
  (blocks.map fun p =>
      (p.1, { p.2 with
        instructions := p.2.instructions.filter (keepInstr used) }),
    blocks.any fun p =>
      (p.2.instructions.filter (keepInstr used)).length
        != p.2.instructions.length)

/-- The `(kill, gen_set)` split at the top of `drop_killed_locals`'s loop. -/
def killOf : Instr → Option String
  | .const dest _ _ => some dest
  | .value dest _ _ _ _ _ => some dest
  | .effect _ _ _ _ => none

/-- The gen half of the same split. -/
def genOf : Instr → List String
  | .const _ _ _ => []
  | .value _ _ args _ _ _ => args
  | .effect _ args _ _ => args

/-- One iteration of the forward walk of `drop_killed_locals`: drop generated
names from `unused_definitions`; on a kill, record the index of a still-unused
previous definition as dead and remember this one. -/
def walkStep (i : Nat) (instr : Instr)
    (st : List (String × Nat) × List Nat) :
    List (String × Nat) × List Nat :=
  let unused := (genOf instr).foldl (fun u usage => alistRemove u usage) st.1
  match killOf instr with
  | some k =>
    let dead :=
      match alistGet? unused k with
      | some j => st.2 ++ [j]
      | none => st.2
    (alistInsert unused k i, dead)
  | none => (unused, st.2)

/-- The full forward walk; `i` is the index in the block of the first
instruction of `rest`. -/
def walk (i : Nat) (rest : List Instr)
    (st : List (String × Nat) × List Nat) :
    List (String × Nat) × List Nat :=
  match rest with
  | [] => st
  | instr :: rest => walk (i + 1) rest (walkStep i instr st)

/-- `dead_instructions.sort_unstable()` followed by removal from the back. -/
def removeIndicesDesc : List Nat → List Instr → List Instr
  | [], l => l
  | i :: rest, l => removeIndicesDesc rest (l.eraseIdx i)

/-- `drop_killed_locals`: the local kill-before-use sweep. -/
def dropKilledLocals (block : BasicBlock) : BasicBlock × Bool :=
  let st := walk 0 block.instructions ([], [])
  let sorted := insertionSortB (fun a b => decide (a ≤ b)) st.2
  ({ block with
      instructions := removeIndicesDesc sorted.reverse block.instructions },
    !st.2.isEmpty)

/-- The shape preserved by both sweeps. -/
def isEffect : Instr → Bool
  | .effect _ _ _ _ => true
  | _ => false

/-! ## `src/lesson3/lvn/src/main.rs` -/

/-- `OpArg`: an argument of a canonical value, either an index into the value
table or an external variable name.  The derived Rust `Ord` sorts all
`Value`s before all `Unknown`s. -/
inductive OpArg where
  | value (n : Nat)
  | unknown (s : String)
deriving DecidableEq

/-- The derived `Ord` of `OpArg` as a boolean comparator, used by
`new_args.sort()`. -/
def opArgLe : OpArg → OpArg → Bool
  | .value a, .value b => a ≤ b
  | .value _, .unknown _ => true
  | .unknown _, .value _ => false
  | .unknown a, .unknown b => a ≤ b

/-- `Value` of the LVN table.  `NeverEqual` (a tag that compares unequal to
everything, including itself) is modelled by giving each `LeftAlone` a tag
that is fresh with respect to the table at creation time, so no lookup ever
matches it. -/
inductive LvnValue where
  | float (printed : String)
  | otherConst (printed : String)
  | op (o : ValueOp) (args : List OpArg)
  | leftAlone (tag : Nat)
deriving DecidableEq

/-- The printed form of a literal (`Literal`'s `Display`). -/
def litToString : Lit → String
  | .int n => toString n
  | .bool b => if b then "true" else "false"
  | .float s => s
  | .char c => toString c

/-- `ValueTable`. -/
structure ValueTable where
  values : List (LvnValue × String) := []
  intern : List (LvnValue × Nat) := []
  counter : Nat := 0
  variablesToValues : List (String × Nat) := []
  constantFolder : List (Nat × Lit) := []
deriving DecidableEq

/-- `ValueTable::add_value_and_get_existing_variable`.  Returns the updated
table, the destination to use, and the canonical variable when the value was
already interned. -/
def ValueTable.addValueAndGetExistingVariable (table : ValueTable)
    (value : LvnValue) (constant : Option Lit) (currentVariable : String)
    (isOverwritten : Bool) : ValueTable × String × Option String :=
  match alistGet? table.intern value with
  | some existingValueIndex =>
    ({ table with
        variablesToValues :=
          alistInsert table.variablesToValues currentVariable
            existingValueIndex },
      currentVariable,
      some (((table.values[existingValueIndex]?).map Prod.snd).getD ""))
  | none =>
    let bumped := if isOverwritten then table.counter + 1 else table.counter
    let newName :=
      if isOverwritten then
        currentVariable ++ "__t" ++ toString bumped
      else
        currentVariable
    let newValues := table.values ++ [(value, newName)]
    let newValueIndex := newValues.length - 1
    ({ table with
        values := newValues
        intern := alistInsert table.intern value newValueIndex
        counter := bumped
        constantFolder :=
          match constant with
          | some c => alistInsert table.constantFolder newValueIndex c
          | none => table.constantFolder
        variablesToValues :=
          alistInsert table.variablesToValues currentVariable
            newValueIndex },
      newName, none)

/-- `ValueTable::get_value`. -/
def ValueTable.getValue (table : ValueTable) (varName : String) :
    Option Nat :=
  alistGet? table.variablesToValues varName

/-- `ValueTable::get_canonical_name`.  The Rust indexes `self.values[value]`,
which is always in range when called; out of range yields `""` here. -/
def ValueTable.getCanonicalName (table : ValueTable) (value : OpArg) :
    String :=
  match value with
  | .value v => ((table.values[v]?).map Prod.snd).getD ""
  | .unknown other => other

/-- `ValueTable::get_constant`, reading the constant-folding side map. -/
def getConstantF (folder : List (Nat × Lit)) : OpArg → Option Lit
  | .value v => alistGet? folder v
  | .unknown _ => none

/-- `ValueTable::get_constant`. -/
def ValueTable.getConstant (table : ValueTable) (value : OpArg) :
    Option Lit :=
  getConstantF table.constantFolder value

/-- `i64` two's-complement wrapping, the release-mode semantics of Rust `i64`
arithmetic (`ints.into_iter().sum::<i64>()`). -/
def wrap64 (n : Int) : Int :=
  (n + 2 ^ 63) % 2 ^ 64 - 2 ^ 63

/-- The wrapping sum of a list of `i64` values. -/
def wrapSum (ints : List Int) : Int :=
  ints.foldl (fun acc n => wrap64 (acc + n)) 0

/-- `collect::<Result<Vec<Literal>, ()>>` over `get_constant`: all arguments
must resolve in the constant-folding side map. -/
def collectConstantsF (folder : List (Nat × Lit)) : List OpArg →
    Option (List Lit)
  | [] => some []
  | a :: rest =>
    match getConstantF folder a with
    | some c => (collectConstantsF folder rest).map (fun cs => c :: cs)
    | none => none

/-- The same collection phrased on the table. -/
def collectConstants (table : ValueTable) (l : List OpArg) :
    Option (List Lit) :=
  collectConstantsF table.constantFolder l

/-- `collect::<Result<Vec<i64>, ()>>`: all literals must be integers. -/
def collectInts : List Lit → Option (List Int)
  | [] => some []
  | Lit.int n :: rest => (collectInts rest).map (fun ns => n :: ns)
  | _ :: _ => none

/-- The commutative operations whose canonical arguments are sorted. -/
def isCommutativeOp : ValueOp → Bool
  | .add | .fadd | .mul | .fmul | .eq | .feq | .and | .or | .ceq => true
  | _ => false

/-- Map a source argument to an `OpArg` (`table.get_value(arg)` or an
external name). -/
def lvnArg (table : ValueTable) (arg : String) : OpArg :=
  match table.getValue arg with
  | some v => OpArg.value v
  | none => OpArg.unknown arg

/-- The loop body of `lvn` for one instruction at index `i`.  `none` models
the `unwrap`/`unreachable!` aborts, which cannot fire on the states `lvn`
produces. -/
def lvnStep (table : ValueTable) (lastAssignment : List (String × Nat))
    (i : Nat) : Instr → Option (ValueTable × Instr)
  | .value dest .get args funcs labels ty =>
    -- the `ValueOps::Get` arm: passed through untouched (and not entered
    -- into the table), with cleared operand vectors
    let _ := (args, funcs, labels)
    some (table, .value dest .get [] [] [] ty)
  | .const dest ty value =>
    match alistGet? lastAssignment dest with
    | none => none
    | some lastIdx =>
      let isOverwritten := decide (lastIdx > i)
      let classified :=
        if ty = Ty.float then
          LvnValue.float (litToString value)
        else
          LvnValue.otherConst (litToString value)
      match table.addValueAndGetExistingVariable classified (some value)
          dest isOverwritten with
      | (table, destination, some replacementVariable) =>
        some (table, .value destination .id [replacementVariable] [] [] ty)
      | (table, destination, none) =>
        some (table, .const destination ty value)
  | .value dest .alloc args funcs labels ty =>
    match alistGet? lastAssignment dest with
    | none => none
    | some lastIdx =>
      let isOverwritten := decide (lastIdx > i)
      let newArgs := args.map (lvnArg table)
      match table.addValueAndGetExistingVariable
          (LvnValue.leftAlone table.values.length) none dest
          isOverwritten with
      | (table, destination, none) =>
        some (table,
          .value destination .alloc (newArgs.map table.getCanonicalName)
            funcs labels ty)
      | (_, _, some _) => none
  | .value dest .call args funcs labels ty =>
    match alistGet? lastAssignment dest with
    | none => none
    | some lastIdx =>
      let isOverwritten := decide (lastIdx > i)
      let newArgs := args.map (lvnArg table)
      match table.addValueAndGetExistingVariable
          (LvnValue.leftAlone table.values.length) none dest
          isOverwritten with
      | (table, destination, none) =>
        some (table,
          .value destination .call (newArgs.map table.getCanonicalName)
            funcs labels ty)
      | (_, _, some _) => none
  | .value dest op args funcs labels ty =>
    match alistGet? lastAssignment dest with
    | none => none
    | some lastIdx =>
      let isOverwritten := decide (lastIdx > i)
      let mappedArgs := args.map (lvnArg table)
      let newArgs :=
        if isCommutativeOp op then
          insertionSortB opArgLe mappedArgs
        else
          mappedArgs
      match table.addValueAndGetExistingVariable (LvnValue.op op newArgs)
          none dest isOverwritten with
      | (table, destination, some replacementVariable) =>
        some (table, .value destination .id [replacementVariable] [] [] ty)
      | (table, destination, none) =>
        let constantFolded :=
          match collectConstants table newArgs with
          | some literals =>
            match op with
            | .add =>
              match collectInts literals with
              | some ints =>
                some (Instr.const destination ty (Lit.int (wrapSum ints)))
              | none => none
            | _ => none
          | none => none
        match constantFolded with
        | some folded => some (table, folded)
        | none =>
          some (table,
            .value destination op (newArgs.map table.getCanonicalName)
              funcs labels ty)
  | .effect op args funcs labels =>
    some (table,
      .effect op (args.map (fun arg => table.getCanonicalName (lvnArg table arg)))
        funcs labels)

/-- The `last_assignment` pre-scan of `lvn`. -/
def lastAssignmentMap (instrs : List Instr) : List (String × Nat) :=
  (instrs.enum.foldl (fun acc p =>
    match p.2 with
    | .const dest _ _ => alistInsert acc dest p.1
    | .value dest _ _ _ _ _ => alistInsert acc dest p.1
    | .effect _ _ _ _ => acc) [])

/-- The rewriting loop of `lvn` from instruction index `i` onwards. -/
def lvnGo (table : ValueTable) (lastAssignment : List (String × Nat))
    (i : Nat) : List Instr → Option (List Instr)
  | [] => some []
  | instr :: rest => do
    let (table, instr) ← lvnStep table lastAssignment i instr
    let rest ← lvnGo table lastAssignment (i + 1) rest
    return instr :: rest

/-- `lvn` on one basic block. -/
def lvn (block : BasicBlock) : Option BasicBlock :=
  (lvnGo {} (lastAssignmentMap block.instructions) 0
      block.instructions).map
    (fun instrs => { block with instructions := instrs })

/-! ## `src/lesson4/dataflow/src/lib.rs`: postorder construction -/

/-- The recursive `helper` of `construct_postorder`: depth-first search
marking `visited` before exploring successors, appending `current` after.
The Rust recursion terminates via `visited`; the structural `fuel` here is
chosen large enough in `constructPostorder` that it never runs out. -/
def postorderGo (cfg : FunctionCfg) : Nat → Nat → (List Nat × List Nat) →
    (List Nat × List Nat)
  | 0, _, st => st
  | fuel + 1, current, st =>
    let st := (current :: st.1, st.2)
    let st := (cfg.successors current).foldl
      (fun (st : List Nat × List Nat) successor =>
        if st.1.contains successor then st
        else postorderGo cfg fuel successor st)
      st
    (st.1, st.2 ++ [current])

/-- `construct_postorder`.  The recursion depth is bounded by the number of
distinct nodes ever visited, itself at most `|vertices| + |edges| + 1`. -/
def constructPostorder (cfg : FunctionCfg) : List Nat :=
  (postorderGo cfg (cfg.vertices.length + cfg.edges.length + 2) cfg.entry
    ([], [])).2

/-! ## `src/lesson5/dominators/src/lib.rs` -/

/-- One pass of the `compute_dominators` fixpoint (the inner `for` loop):
update every block of `order` as the intersection of its predecessors' sets
plus itself, recording in the flag whether anything changed. -/
def domPass (cfg : FunctionCfg) :
    List Nat → (Nat → Finset Nat) → Bool → (Nat → Finset Nat) × Bool
  | [], doms, changed => (doms, changed)
  | blockIdx :: order, doms, changed =>
    let previous := doms blockIdx
    let inter :=
      match cfg.predecessors blockIdx with
      | [] => (∅ : Finset Nat)
      | p :: rest => rest.foldl (fun s q => s ∩ doms q) (doms p)
    let newSet := insert blockIdx inter
    domPass cfg order (fun b => if b = blockIdx then newSet else doms b)
      (changed || decide (newSet ≠ previous))

/-- The `while needs_update` loop, with explicit fuel (the Rust loop
terminates because the sets shrink monotonically over a finite lattice). -/
def domIterate (cfg : FunctionCfg) (order : List Nat) :
    Nat → (Nat → Finset Nat) → (Nat → Finset Nat)
  | 0, doms => doms
  | fuel + 1, doms =>
    let pass := domPass cfg order doms false
    if pass.2 then domIterate cfg order fuel pass.1 else pass.1

/-- `compute_dominators`.  The returned map is total here; the Rust map has
entries exactly for the vertices, and every theorem below only reads it at
vertices. -/
def computeDominators (cfg : FunctionCfg) (fuel : Nat) : Nat → Finset Nat :=
  let reversePostorder :=
    ((constructPostorder cfg).reverse).filter (fun idx => idx != cfg.entry)
  let allBlocks := (cfg.vertices.map Prod.fst).toFinset
  let initial : Nat → Finset Nat :=
    fun b => if b = cfg.entry then {cfg.entry} else allBlocks
  domIterate cfg reversePostorder fuel initial

/-- The `rev` map shared by `compute_dominator_tree` and
`compute_dominance_frontiers`: `rev d` is the set of blocks strictly
dominated by `d`.  Its key set equals the vertex keys because every block
dominates itself. -/
def domRev (keys : List Nat) (doms : Nat → Finset Nat) (d : Nat) :
    Finset Nat :=
  (keys.filter (fun b => decide (d ∈ doms b) && b != d)).toFinset

/-- `compute_dominator_tree`: keep in `tree idx` those blocks dominated by
`idx` but not by any other non-ancestor dominator. -/
def computeDominatorTree (keys : List Nat) (doms : Nat → Finset Nat) :
    Nat → Finset Nat :=
  fun idx =>
    keys.foldl
      (fun dominated other =>
        if other ≠ idx ∧ idx ∉ domRev keys doms other then
          dominated \ domRev keys doms other
        else
          dominated)
      (domRev keys doms idx)

/-- `compute_dominance_frontiers`: successors of the dominated region
(including the block's own) that are not strictly dominated. -/
def computeDominanceFrontiers (cfg : FunctionCfg) (doms : Nat → Finset Nat) :
    Nat → Finset Nat :=
  fun idx =>
    let keys := cfg.vertices.map Prod.fst
    let dominated := domRev keys doms idx
    ((dominated.biUnion (fun d => (cfg.successors d).toFinset))
        ∪ (cfg.successors idx).toFinset) \ dominated

/-! ## `src/lesson6/ssa/src/lib.rs` -/

/-- `compute_definition_sites`: for every variable, its first-seen type and
the blocks assigning it, ordered like the `BTreeMap` (sorted by name). -/
def computeDefinitionSites (cfg : FunctionCfg) :
    List (String × (Ty × List Nat)) :=
  let unsorted :=
    cfg.vertices.foldl
      (fun acc p =>
        p.2.instructions.foldl
          (fun (acc : List (String × (Ty × List Nat))) instr =>
            match instr with
            | .const dest ty _ =>
              match alistGet? acc dest with
              | some (ty₀, blocks) =>
                alistInsert acc dest (ty₀, blocks ++ [p.1])
              | none => acc ++ [(dest, (ty, [p.1]))]
            | .value dest _ _ _ _ ty =>
              match alistGet? acc dest with
              | some (ty₀, blocks) =>
                alistInsert acc dest (ty₀, blocks ++ [p.1])
              | none => acc ++ [(dest, (ty, [p.1]))]
            | .effect _ _ _ _ => acc)
          acc)
      []
  insertionSortB (fun a b => decide (a.1 ≤ b.1)) unsorted

/-- The `while let Some(block_idx) = definition_blocks.pop()` loop of
`determine_phi_insertion_points`: the `Vec` is only popped, never pushed, so
it walks the definition blocks from the back and unions their frontiers. -/
def phiLoopRev (df : Nat → Finset Nat) : List Nat → Finset Nat → Finset Nat
  | [], acc => acc
  | b :: rest, acc => phiLoopRev df rest (acc ∪ df b)

/-- `determine_phi_insertion_points`.  A variable gets an entry iff at least
one frontier block was inserted for it. -/
def determinePhiInsertionPoints
    (definitionSites : List (String × (Ty × List Nat)))
    (dominanceFrontiers : Nat → Finset Nat) :
    List (String × (Ty × Finset Nat)) :=
  definitionSites.filterMap
    (fun p =>
      let pts := phiLoopRev dominanceFrontiers p.2.2.reverse ∅
      if pts = ∅ then none else some (p.1, (p.2.1, pts)))

/-- Modelled from the spec: the iterated dominance-frontier closure
("start with its definition sites and union in `df(b)` for each `b` in the
worklist until fixed"), the set `determine_phi_insertion_points` is claimed
to compute.  Newly discovered frontier blocks re-enter the worklist. -/
def iteratedDfClosure (df : Nat → Finset Nat) (domain : List Nat) :
    Nat → List Nat → Finset Nat → Finset Nat
  | 0, _, acc => acc
  | _, [], acc => acc
  | fuel + 1, b :: rest, acc =>
    let fresh :=
      domain.filter (fun x => decide (x ∈ df b) && decide (x ∉ acc))
    iteratedDfClosure df domain fuel (rest ++ fresh) (acc ∪ df b)

/-- `insert_phis`: prepend a `get v` at the head of every block that needs
one, in sorted variable order (the `BTreeMap` iteration). -/
def insertPhis (cfg : FunctionCfg)
    (points : List (String × (Ty × Finset Nat))) : FunctionCfg :=
  let phisFor : Nat → List Instr := fun blockIdx =>
    points.flatMap
      (fun p =>
        if blockIdx ∈ p.2.2 then
          [Instr.value p.1 .get [] [] [] p.2.1]
        else
          [])
  { cfg with
      vertices := cfg.vertices.map
        (fun p => (p.1, { p.2 with
          instructions := phisFor p.1 ++ p.2.instructions })) }

/-- All destinations of `Const`/`Value` instructions in the function. -/
def allDests (cfg : FunctionCfg) : List String :=
  cfg.vertices.flatMap (fun p => p.2.instructions.filterMap killOf)

/-- Modelled from the spec: `ssa::is_ssa`, the validation the SSA driver
asserts before emitting (its source is not in the repository snapshot).
Spec: "Every destination is defined at most once in the function (strict
SSA). A validation pass must assert this before emitting SSA." -/
def isSsa (cfg : FunctionCfg) : Bool :=
  decide (allDests cfg).Nodup

/-- The `--into-ssa` pipeline of `src/lesson6/ssa/src/main.rs`.  The helpers
missing from the snapshot (`insert_new_empty_entry_block`,
`simulate_parameters_as_locals`, `rename_and_insert_upsilons` — whose body
is commented out in `lib.rs` — and `insert_undefined_names_at_entry`) are
abstracted as the `prep` and `renameStage` parameters; the phi-insertion
steps and the final `assert!(ssa::is_ssa(&cfg))` guard before
`print_cfg_as_bril_text` are embedded from the source.  `none` models the
panicking assert, under which nothing is emitted. -/
def intoSsaPipeline (fuel : Nat) (prep renameStage : FunctionCfg →
    FunctionCfg) (cfg : FunctionCfg) : Option FunctionCfg :=
  let cfg := prep cfg
  let doms := computeDominators cfg fuel
  let fronts := computeDominanceFrontiers cfg doms
  let sites := computeDefinitionSites cfg
  let points := determinePhiInsertionPoints sites fronts
  let cfg := insertPhis cfg points
  let cfg := renameStage cfg
  if isSsa cfg then some cfg else none

/-- `get` shape test. -/
def isGetInstr : Instr → Bool
  | .value _ .get _ _ _ _ => true
  | _ => false

/-- `set` shape test. -/
def isSetInstr : Instr → Bool
  | .effect .set _ _ _ => true
  | _ => false

/-- The first pass of `from_ssa`: record the type of every `get`'s
destination. -/
def setOperationTypes (cfg : FunctionCfg) : List (String × Ty) :=
  cfg.vertices.foldl
    (fun acc p =>
      p.2.instructions.foldl
        (fun (acc : List (String × Ty)) instr =>
          match instr with
          | .value dest .get _ _ _ ty => alistInsert acc dest ty
          | _ => acc)
        acc)
    []

/-- The in-place `set`-to-`id` rewriting loop of `from_ssa` on one block's
(already `get`-stripped) instructions.  An error aborts immediately, leaving
the offending instruction and everything after it untouched. -/
def convertSetInstrs (types : List (String × Ty)) :
    List Instr → (List Instr × Option String)
  | [] => ([], none)
  | instr :: rest =>
    match instr with
    | .effect .set args funcs labels =>
      match args with
      | [d, s] =>
        match alistGet? types d with
        | some ty =>
          let converted := convertSetInstrs types rest
          (Instr.value d .id [s] [] [] ty :: converted.1, converted.2)
        | none =>
          (Instr.effect .set args funcs labels :: rest,
            some "The corresponding get instruction does not exist or did not specify a type")
      | _ =>
        (Instr.effect .set args funcs labels :: rest,
          some "EffectOps::Set should have two arguments")
    | _ =>
      let converted := convertSetInstrs types rest
      (instr :: converted.1, converted.2)

/-- The second, mutating pass of `from_ssa`: per block, drop every `get`
then rewrite the `set`s; an error stops the traversal, leaving later blocks
untouched. -/
def fromSsaBlocks (types : List (String × Ty)) :
    List (Nat × BasicBlock) → (List (Nat × BasicBlock) × Option String)
  | [] => ([], none)
  | (k, b) :: rest =>
    let retained := b.instructions.filter (fun i => !isGetInstr i)
    let converted := convertSetInstrs types retained
    match converted.2 with
    | some e => ((k, { b with instructions := converted.1 }) :: rest, some e)
    | none =>
      let tail := fromSsaBlocks types rest
      ((k, { b with instructions := converted.1 }) :: tail.1, tail.2)

/-- `from_ssa`.  Returns the (possibly partially) mutated CFG together with
`some diagnostic` on failure, mirroring that the Rust mutates `cfg` in place
and then returns `Err`. -/
def fromSsa (cfg : FunctionCfg) : FunctionCfg × Option String :=
  let types := setOperationTypes cfg
  let converted := fromSsaBlocks types cfg.vertices
  ({ cfg with vertices := converted.1 }, converted.2)

/-! ## `src/lesson8/loop-opt/src/main.rs`: back-edge detection -/

/-- The back-edge scan of the loop optimizer: `(start, end)` is collected
iff `dominance_tree[end]` contains `start`. -/
def backEdges (cfg : FunctionCfg) (tree : Nat → Finset Nat) :
    List (Nat × Nat) :=
  cfg.vertices.flatMap
    (fun p =>
      (cfg.successors p.1).filterMap
        (fun e => if p.1 ∈ tree e then some (p.1, e) else none))

/-- Reachability from the entry along resolved CFG edges. -/
inductive Reachable (cfg : FunctionCfg) : Nat → Prop where
  | entry : Reachable cfg cfg.entry
  | step {a b : Nat} : Reachable cfg a → b ∈ cfg.successors a →
      Reachable cfg b

/-- Decidable check that a `set` instruction carries two arguments whose
first has a recorded `get` type; vacuously true on non-`set`s. -/
def setHasTypedGet (types : List (String × Ty)) : Instr → Bool
  | .effect .set args _ _ =>
    match args with
    | [d, _] => (alistGet? types d).isSome
    | _ => false
  | _ => true

/-! ## Concrete instances used by counterexamples and witnesses -/

/-- The dominance-frontier map of the C2 counterexample:
`df(b0) = \x7bb1\x7d`, `df(b1) = \x7bb2\x7d`, `df(b2) = ∅`. -/
def dfC2 : Nat → Finset Nat :=
  fun n => if n = 0 then {1} else if n = 1 then {2} else ∅

/-- `@f \x7b ret; .a: ret; \x7d`: an entry that returns at once and an
unreachable labeled block. -/
def cfgUnreach : FunctionCfg :=
  { entry := 0
    nextIdx := 2
    vertices := [
      (0, { isEntry := true, instructions := [.effect .ret [] [] []],
            exit := .ret none }),
      (1, { label := some "a", instructions := [.effect .ret [] [] []],
            exit := .ret none })]
    edges := [(0, .ret none), (1, .ret none)]
    revEdges := [] }

/-- `@f \x7b jmp .L; .L: jmp .L; \x7d` after pruning: block 1 is a
self-loop. -/
def cfgSelfLoop : FunctionCfg :=
  { entry := 0
    nextIdx := 2
    vertices := [
      (0, { isEntry := true, instructions := [.effect .jmp [] [] ["L"]],
            exit := .unconditional "L" }),
      (1, { label := some "L", instructions := [.effect .jmp [] [] ["L"]],
            exit := .unconditional "L" })]
    edges := [(0, .unconditional 1), (1, .unconditional 1)]
    revEdges := [(1, [0, 1])] }

/-- A single-block function defining `x` once. -/
def ssaWitnessCfg : FunctionCfg :=
  { entry := 0
    nextIdx := 1
    vertices := [
      (0, { isEntry := true, instructions := [.const "x" .int (.int 1)],
            exit := .ret none })]
    edges := [(0, .ret none)]
    revEdges := [] }

/-- A CFG whose first block holds a `get y` and whose second holds a
`set [d, s]` with no corresponding `get d`. -/
def c9ErrCfg : FunctionCfg :=
  { entry := 0
    nextIdx := 2
    vertices := [
      (0, { isEntry := true,
            instructions := [.value "y" .get [] [] [] .int],
            exit := .ret none }),
      (1, { label := some "b",
            instructions := [.effect .set ["d", "s"] [] []],
            exit := .ret none })]
    edges := [(0, .ret none), (1, .ret none)]
    revEdges := [] }

/-- A CFG that is not in strict SSA (`x` defined twice) and holds no
`get`/`set`. -/
def c9NonSsaCfg : FunctionCfg :=
  { entry := 0
    nextIdx := 1
    vertices := [
      (0, { isEntry := true,
            instructions := [.const "x" .int (.int 1),
              .const "x" .int (.int 2)],
            exit := .ret none })]
    edges := [(0, .ret none)]
    revEdges := [] }

/-- A CFG with one `get x` and a matching `set [x, y]`. -/
def c9OkCfg : FunctionCfg :=
  { entry := 0
    nextIdx := 2
    vertices := [
      (0, { isEntry := true,
            instructions := [.value "x" .get [] [] [] .int],
            exit := .ret none }),
      (1, { label := some "b",
            instructions := [.effect .set ["x", "y"] [] []],
            exit := .ret none })]
    edges := [(0, .ret none), (1, .ret none)]
    revEdges := [] }

/-- `a = const (2^63 - 1); b = const 1; c = add a b`: the i64 sum of the
operands overflows. -/
def lvnOverflowBlock : BasicBlock :=
  { instructions := [
      .const "a" .int (.int 9223372036854775807),
      .const "b" .int (.int 1),
      .value "c" .add ["a", "b"] [] [] .int] }

/-- `a = const 2; b = const 3; c = add a b; d = add a b`: the second `add` is
a value-table hit. -/
def lvnCseBlock : BasicBlock :=
  { instructions := [
      .const "a" .int (.int 2),
      .const "b" .int (.int 3),
      .value "c" .add ["a", "b"] [] [] .int,
      .value "d" .add ["a", "b"] [] [] .int] }

/-- The value-table state `lvn` reaches after `a = const 2; b = const 3`. -/
def lvnTableAfterConsts : ValueTable :=
  { values := [(.otherConst "2", "a"), (.otherConst "3", "b")]
    intern := [(.otherConst "2", 0), (.otherConst "3", 1)]
    counter := 0
    variablesToValues := [("a", 0), ("b", 1)]
    constantFolder := [(0, .int 2), (1, .int 3)] }

/-- The state after additionally processing `c = add a b`. -/
def lvnTableAfterAdd : ValueTable :=
  { values := [(.otherConst "2", "a"), (.otherConst "3", "b"),
      (.op .add [.value 0, .value 1], "c")]
    intern := [(.otherConst "2", 0), (.otherConst "3", 1),
      (.op .add [.value 0, .value 1], 2)]
    counter := 0
    variablesToValues := [("a", 0), ("b", 1), ("c", 2)]
    constantFolder := [(0, .int 2), (1, .int 3)] }

/-- An index whose instruction in `instrs` is a `Constant`/`Value`
definition (an index `drop_killed_locals` may record as dead). -/
def DefIdx (instrs : List Instr) (j : Nat) : Prop :=
  ∃ ins, instrs[j]? = some ins ∧ (killOf ins).isSome

/-- Invariant of the `drop_killed_locals` forward walk: all recorded indices
are definition indices below the cursor, keys are unique, and no index is
recorded twice. -/
structure WalkInv (instrs : List Instr) (i : Nat)
    (st : List (String × Nat) × List Nat) : Prop where
  unusedLt : ∀ p ∈ st.1, p.2 < i
  unusedDef : ∀ p ∈ st.1, DefIdx instrs p.2
  deadLt : ∀ j ∈ st.2, j < i
  deadDef : ∀ j ∈ st.2, DefIdx instrs j
  keysNodup : (st.1.map Prod.fst).Nodup
  deadNodup : st.2.Nodup
  sndsNodup : (st.1.map Prod.snd).Nodup
  disj : ∀ j ∈ st.2, j ∉ st.1.map Prod.snd

/-! ## Further definitions for the builder exactness analysis (C3, C4) -/

/-- The predecessor list stored for `t` (`[]` when absent), as a function of
a raw `rev_edges` table. -/
def revList (rev : List (Nat × List Nat)) (t : Nat) : List Nat :=
  (alistGet? rev t).getD []

/-- Total number of `t`-successor slots contributed by the entries of an
edge table whose key is `q`. -/
def edgesCount (l : List (Nat × Exit)) (t q : Nat) : Nat :=
  ((l.filter (fun pe => pe.1 == q)).map
    (fun pe => (exitSuccs pe.2).count t)).sum

/-- Multiset-exactness of the predecessor index: `p` occurs in
`rev_edges[t]` exactly as often as `t` occurs in `succ(p)`. -/
def RevExact (cfg : FunctionCfg) : Prop :=
  ∀ p t : Nat, (cfg.predecessors t).count p = (cfg.successors p).count t

/-- Invariant carried through the `build_cfg` instruction loop: vertex keys
are strictly increasing and below the slotmap's fresh counter, the two label
tables only name existing vertices, and no edges exist yet. -/
structure BuilderInv (b : FunctionCfgBuilder) : Prop where
  bound : ∀ k ∈ b.cfg.vertices.map Prod.fst, k < b.cfg.nextIdx
  sorted : (b.cfg.vertices.map Prod.fst).Pairwise (· < ·)
  ltbSub : ∀ v ∈ b.labelsToBlocks.map Prod.snd,
    v ∈ b.cfg.vertices.map Prod.fst
  iboSub : ∀ v ∈ b.inputBlockOrder.map Prod.snd,
    v ∈ b.cfg.vertices.map Prod.fst
  edgesNil : b.cfg.edges = []
  revNil : b.cfg.revEdges = []

/-- `@f { br c .L .L; .L: ret; }`: a two-armed branch whose arms share a
target. -/
def c3codes : List Code :=
  [.instr (.effect .br ["c"] [] ["L", "L"]), .label "L",
   .instr (.effect .ret [] [] [])]

/-- `@f { ret; .a: jmp .b; .b: ret; }`: a two-block chain of
entry-unreachable code. -/
def c4codes : List Code :=
  [.instr (.effect .ret [] [] []), .label "a",
   .instr (.effect .jmp [] [] ["b"]), .label "b",
   .instr (.effect .ret [] [] [])]

/-- A CFG where block 0 jumps unconditionally to block 1; block 2 is a
labeled return block. -/
def stCfg : FunctionCfg :=
  { entry := 0
    nextIdx := 3
    vertices := [
      (0, { isEntry := true, instructions := [.effect .jmp [] [] ["A"]],
            exit := .unconditional "A" }),
      (1, { label := some "A", instructions := [.effect .ret [] [] []],
            exit := .ret none }),
      (2, { label := some "B", instructions := [.effect .ret [] [] []],
            exit := .ret none })]
    edges := [(0, .unconditional 1), (1, .ret none), (2, .ret none)]
    revEdges := [(1, [0])] }

/-- A CFG whose entry branches with both arms on block 1 (the CFG the
builder produces for `c3codes`, plus a spare labeled block 2). -/
def dupCfg : FunctionCfg :=
  { entry := 0
    nextIdx := 3
    vertices := [
      (0, { isEntry := true,
            instructions := [.effect .br ["c"] [] ["L", "L"]],
            exit := .conditional "c" "L" "L" }),
      (1, { label := some "L", instructions := [.effect .ret [] [] []],
            exit := .ret none }),
      (2, { label := some "M", instructions := [.effect .ret [] [] []],
            exit := .ret none })]
    edges := [(0, .conditional "c" 1 1), (1, .ret none), (2, .ret none)]
    revEdges := [(1, [0, 0])] }

/-- A CFG whose entry branches to two distinct blocks 1 and 2, with a spare
labeled block 3 to reorient onto. -/
def reorCfg : FunctionCfg :=
  { entry := 0
    nextIdx := 4
    vertices := [
      (0, { isEntry := true,
            instructions := [.effect .br ["c"] [] ["A", "B"]],
            exit := .conditional "c" "A" "B" }),
      (1, { label := some "A", instructions := [.effect .ret [] [] []],
            exit := .ret none }),
      (2, { label := some "B", instructions := [.effect .ret [] [] []],
            exit := .ret none }),
      (3, { label := some "C", instructions := [.effect .ret [] [] []],
            exit := .ret none })]
    edges := [(0, .conditional "c" 1 2), (1, .ret none), (2, .ret none),
      (3, .ret none)]
    revEdges := [(1, [0]), (2, [0])] }

/-! ## `src/lesson4/dataflow`: the generic solver and reaching definitions -/

/-- `dataflow::Direction`. -/
inductive Direction where
  | forward
  | backward

/-- `bril_util::InstructionValue` (the `Op` name rendered as the enum it
prints). -/
inductive InstructionValue where
  | argument
  | constant (printed : String) (isFloat : Bool)
  | op (op : ValueOp) (args : List String) (funcs : List String)
      (labels : List String)
deriving DecidableEq

/-- `InstructionExt::value`. -/
def instrValue : Instr → Option InstructionValue
  | .const _ _ v =>
    some (.constant (litToString v)
      (match v with | .float _ => true | _ => false))
  | .value _ op args funcs labels _ => some (.op op args funcs labels)
  | .effect _ _ _ _ => none

/-- `reaching_definitions::Definition`. -/
structure Definition where
  name : String
  value : InstructionValue
  block : Nat
deriving DecidableEq

/-- `HashSet` union (`lhs.union(rhs)`), on lists up to membership. -/
def listUnion {T : Type} [DecidableEq T] (a b : List T) : List T :=
  a ++ b.filter (fun x => !a.contains x)

/-- `HashSet` equality (`new_out != previous_out`), on lists up to
membership. -/
def listSetEq {T : Type} [DecidableEq T] (a b : List T) : Bool :=
  a.all (fun x => b.contains x) && b.all (fun x => a.contains x)

/-- One instruction of the reaching-definitions `transfer`: on a kill, drop
every definition of that name and insert this block's. -/
def rdTransferStep (blockIdx : Nat) (inputs : List Definition)
    (instr : Instr) : List Definition :=
  match killOf instr, instrValue instr with
  | some kill, some v =>
    (inputs.filter (fun d => decide (d.name ≠ kill))) ++
      [⟨kill, v, blockIdx⟩]
  | _, _ => inputs

/-- `reaching_definitions::transfer`. -/
def rdTransfer (block : BasicBlock) (blockIdx : Nat)
    (inputs : List Definition) : List Definition :=
  block.instructions.foldl (rdTransferStep blockIdx) inputs

/-- The `while let Some(current) = blocks.pop_front()` loop of
`solve_dataflow`, with explicit fuel; `none` models both fuel exhaustion
and the panics on a missing `solution`/`vertices` entry. -/
def solveDataflowGo {T : Type} [DecidableEq T] (cfg : FunctionCfg)
    (dir : Direction) (merge : List T → List T → List T)
    (transfer : BasicBlock → Nat → List T → List T) :
    Nat → List Nat → List T → List (Nat × List T) →
    Option (List (Nat × List T))
  | 0, _, _, _ => none
  | _ + 1, [], _, solution => some solution
  | fuel + 1, current :: blocks, initialIn, solution => do
    let ins ← (match dir with
      | .forward => cfg.predecessors current
      | .backward => cfg.successors current).foldlM
      (fun acc p => (alistGet? solution p).map (fun s => merge acc s))
      initialIn
    let previousOut ← alistGet? solution current
    let block ← cfg.getVertex current
    let newOut := transfer block current ins
    if listSetEq newOut previousOut then
      solveDataflowGo cfg dir merge transfer fuel blocks [] solution
    else
      solveDataflowGo cfg dir merge transfer fuel
        (blocks ++ (match dir with
          | .forward => cfg.successors current
          | .backward => cfg.predecessors current))
        [] (alistInsert solution current newOut)

/-- `solve_dataflow`. -/
def solveDataflow {T : Type} [DecidableEq T] (cfg : FunctionCfg)
    (dir : Direction) (entryInputs : List T)
    (merge : List T → List T → List T)
    (transfer : BasicBlock → Nat → List T → List T) (fuel : Nat) :
    Option (List (Nat × List T)) :=
  let postorderTraversal := constructPostorder cfg
  let blocks :=
    match dir with
    | .forward => postorderTraversal.reverse
    | .backward => postorderTraversal
  let solution := cfg.vertices.map (fun p => (p.1, ([] : List T)))
  solveDataflowGo cfg dir merge transfer fuel blocks entryInputs solution

/-- The entry-argument pseudo-definitions `reaching_definitions` seeds the
solver with. -/
def rdEntryInputs (cfg : FunctionCfg) : List Definition :=
  cfg.arguments.map (fun a => ⟨a.1, .argument, cfg.entry⟩)

/-- The reaching-definitions instance of `solve_dataflow` run by
`reaching_definitions`. -/
def computeReachingDefinitions (cfg : FunctionCfg) (fuel : Nat) :
    Option (List (Nat × List Definition)) :=
  solveDataflow cfg .forward (rdEntryInputs cfg) listUnion rdTransfer fuel

/-- Whether the block writes `name` at all. -/
def blockKills (bb : BasicBlock) (name : String) : Bool :=
  bb.instructions.any (fun i => killOf i == some name)

/-- Scan for the last instruction killing `name`, carrying the definition it
produces. -/
def lastKillAux (blockIdx : Nat) (name : String) :
    Option Definition → List Instr → Option Definition
  | acc, [] => acc
  | acc, i :: rest =>
    match killOf i, instrValue i with
    | some k, some v =>
      lastKillAux blockIdx name
        (if k = name then some ⟨name, v, blockIdx⟩ else acc) rest
    | _, _ => lastKillAux blockIdx name acc rest

/-- The definition of `name` that survives to the end of the block: the one
made by its last killing instruction. -/
def lastKillDef (blockIdx : Nat) (bb : BasicBlock) (name : String) :
    Option Definition :=
  lastKillAux blockIdx name none bb.instructions

/-- The verification property of the spec: a reverse-CFG path from the block
to the definition's block along predecessor lists, on which no node after
the definition rewrites the name; the definition really is the last write of
its name in its block, and an entry-argument pseudo-definition counts as
defined at the entry (before any instruction, so the entry must not rewrite
it either). -/
inductive DefReaches (cfg : FunctionCfg) (d : Definition) : Nat → Prop where
  | here (bb : BasicBlock) (hv : cfg.getVertex d.block = some bb)
      (hl : lastKillDef d.block bb d.name = some d) :
      DefReaches cfg d d.block
  | arg (bb : BasicBlock) (hval : d.value = .argument)
      (hblk : d.block = cfg.entry)
      (hv : cfg.getVertex cfg.entry = some bb)
      (hk : blockKills bb d.name = false) : DefReaches cfg d cfg.entry
  | step (p b : Nat) (bb : BasicBlock) (hp : DefReaches cfg d p)
      (hpred : p ∈ cfg.predecessors b) (hv : cfg.getVertex b = some bb)
      (hk : blockKills bb d.name = false) : DefReaches cfg d b

/-- A two-block function `@f(x : int) { y = const 1; jmp .L; .L: ret; }`
for exercising the reaching-definitions solver. -/
def rdWitnessCfg : FunctionCfg :=
  { entry := 0
    nextIdx := 2
    arguments := [("x", .int)]
    vertices := [
      (0, { isEntry := true,
            instructions := [.const "y" .int (.int 1),
              .effect .jmp [] [] ["L"]],
            exit := .unconditional "L" }),
      (1, { label := some "L", instructions := [.effect .ret [] [] []],
            exit := .ret none })]
    edges := [(0, .unconditional 1), (1, .ret none)]
    revEdges := [(1, [0])] }

/-- The CFG `build_cfg` returns for `c4codes` with `prune = true`: the
chain head (block 1) is dropped, but block 2 — reachable only through the
dropped block — survives with an empty predecessor list. -/
def c4prunedCfg : FunctionCfg :=
  { name := "f"
    entry := 0
    nextIdx := 4
    vertices := [
      (0, { isEntry := true, instructions := [.effect .ret [] [] []],
            exit := .ret none }),
      (2, { label := some "b", instructions := [.effect .ret [] [] []],
            exit := .ret none })]
    edges := [(0, .ret none), (2, .ret none)]
    revEdges := [(2, [])] }

/-- The keep-predicate of the prune pass of `FunctionCfgBuilder::finish`. -/
def pruneKeep (cfg : FunctionCfg) (idx : Nat) : Bool :=
  idx == cfg.entry || !((alistGet? cfg.revEdges idx).getD []).isEmpty

/-- The surviving vertex keys of the prune pass. -/
def pruneKeys (cfg : FunctionCfg) : List Nat :=
  (cfg.vertices.filter (fun p => pruneKeep cfg p.1)).map Prod.fst

/-! # Theorems -/

theorem orderedInsertB_perm {α : Type} (le : α → α → Bool) (a : α) :
    ∀ l : List α, (orderedInsertB le a l).Perm (a :: l)
  | [] => List.Perm.refl _
  | b :: l => by
    unfold orderedInsertB
    by_cases h : le a b = true
    · simp [h]
    · simp only [h, if_false, Bool.false_eq_true]
      exact ((orderedInsertB_perm le a l).cons b).trans
        (List.Perm.swap a b l)

theorem insertionSortB_perm {α : Type} (le : α → α → Bool) :
    ∀ l : List α, (insertionSortB le l).Perm l
  | [] => List.Perm.refl _
  | a :: l =>
    (orderedInsertB_perm le a (insertionSortB le l)).trans
      ((insertionSortB_perm le l).cons a)

theorem orderedInsertB_pairwise {α : Type} (le : α → α → Bool)
    (htrans : ∀ a b c, le a b = true → le b c = true → le a c = true)
    (htotal : ∀ a b, le a b = true ∨ le b a = true) (a : α) :
    ∀ l : List α, l.Pairwise (fun x y => le x y = true) →
      (orderedInsertB le a l).Pairwise (fun x y => le x y = true)
  | [], _ => by simp [orderedInsertB]
  | b :: l, hp => by
    rw [List.pairwise_cons] at hp
    unfold orderedInsertB
    by_cases h : le a b = true
    · rw [if_pos h, List.pairwise_cons]
      refine ⟨?_, List.pairwise_cons.mpr hp⟩
      intro c hc
      rcases List.mem_cons.mp hc with hc | hc
      · rw [hc]
        exact h
      · exact htrans a b c h (hp.1 c hc)
    · rw [if_neg h, List.pairwise_cons]
      refine ⟨?_, orderedInsertB_pairwise le htrans htotal a l hp.2⟩
      intro c hc
      rcases (orderedInsertB_perm le a l).mem_iff.mp hc with hc'
      rcases List.mem_cons.mp hc' with hc' | hc'
      · rw [hc']
        rcases htotal a b with hab | hba
        · exact absurd hab h
        · exact hba
      · exact hp.1 c hc'

theorem insertionSortB_pairwise {α : Type} (le : α → α → Bool)
    (htrans : ∀ a b c, le a b = true → le b c = true → le a c = true)
    (htotal : ∀ a b, le a b = true ∨ le b a = true) :
    ∀ l : List α,
      (insertionSortB le l).Pairwise (fun x y => le x y = true)
  | [] => by simp [insertionSortB]
  | a :: l => orderedInsertB_pairwise le htrans htotal a _
      (insertionSortB_pairwise le htrans htotal l)

theorem isEffect_eq_false_of_kill {instr : Instr} {k : String}
    (h : killOf instr = some k) : isEffect instr = false := by
  cases instr <;> simp [killOf, isEffect] at h ⊢

theorem keepInstr_of_isEffect {used : List String} {instr : Instr}
    (h : isEffect instr = true) : keepInstr used instr = true := by
  cases instr <;> simp [isEffect, keepInstr] at h ⊢

theorem filter_filter_of_imp {α : Type} (p q : α → Bool)
    (h : ∀ a, q a = true → p a = true) :
    ∀ l : List α, (l.filter p).filter q = l.filter q := by
  intro l
  induction l with
  | nil => rfl
  | cons a l ih =>
    rcases hq : q a with _ | _
    · rcases hp : p a with _ | _ <;>
        simp [List.filter_cons, hp, hq, ih]
    · have hp := h a hq
      simp [List.filter_cons, hp, hq, ih]

theorem filter_eraseIdx_of_target {α : Type} (p : α → Bool) :
    ∀ (l : List α) (i : Nat),
      (∀ a, l[i]? = some a → p a = false) →
      (l.eraseIdx i).filter p = l.filter p
  | [], i, _ => by simp
  | a :: l, 0, h => by
    have ha := h a (by simp)
    simp [List.eraseIdx, List.filter_cons, ha]
  | a :: l, i + 1, h => by
    have ih := filter_eraseIdx_of_target p l i (fun b hb => h b (by simpa))
    simp [List.eraseIdx, List.filter_cons]
    rcases hp : p a with _ | _ <;> simp [hp, ih]

theorem mem_of_alistGet?_eq_some {κ α : Type} [DecidableEq κ]
    {l : List (κ × α)} {k : κ} {v : α} (h : alistGet? l k = some v) :
    (k, v) ∈ l := by
  unfold alistGet? at h
  cases hf : l.find? (fun p => decide (p.1 = k)) with
  | none => rw [hf] at h; simp at h
  | some p =>
    rw [hf] at h
    have hmem := List.mem_of_find?_eq_some hf
    have hkey := List.find?_some hf
    simp at h hkey
    obtain ⟨k₀, v₀⟩ := p
    simp at hkey h
    subst hkey
    subst h
    exact hmem

theorem keys_ne_of_alistGet?_eq_none {κ α : Type} [DecidableEq κ]
    {l : List (κ × α)} {k : κ} (h : alistGet? l k = none) :
    ∀ p ∈ l, p.1 ≠ k := by
  unfold alistGet? at h
  cases hf : l.find? (fun p => decide (p.1 = k)) with
  | none =>
    intro p hp
    have := List.find?_eq_none.mp hf p hp
    simpa using this
  | some p => rw [hf] at h; simp at h

theorem alistInsert_of_not_mem {κ α : Type} [DecidableEq κ]
    (l : List (κ × α)) (k : κ) (v : α) (h : ∀ p ∈ l, p.1 ≠ k) :
    alistInsert l k v = l ++ [(k, v)] := by
  unfold alistInsert
  rw [if_neg]
  simp only [List.any_eq_true, decide_eq_true_eq, not_exists, not_and]
  intro p hp
  exact fun hk => h p hp hk

theorem alist_split_of_get {κ α : Type} [DecidableEq κ] :
    ∀ (l : List (κ × α)) (k : κ) (v : α),
      (l.map Prod.fst).Nodup → alistGet? l k = some v →
      ∃ l₁ l₂, l = l₁ ++ (k, v) :: l₂ ∧ (∀ p ∈ l₁, p.1 ≠ k) ∧
        (∀ p ∈ l₂, p.1 ≠ k)
  | [], k, v, _, hget => by simp [alistGet?] at hget
  | (k₀, v₀) :: rest, k, v, hnd, hget => by
    by_cases hk : k₀ = k
    · subst hk
      have hv : v₀ = v := by
        simp [alistGet?, List.find?_cons] at hget
        exact hget
      subst hv
      refine ⟨[], rest, by simp, by simp, ?_⟩
      intro p hp hpk
      rw [List.map_cons, List.nodup_cons] at hnd
      apply hnd.1
      rw [← hpk]
      exact List.mem_map.mpr ⟨p, hp, rfl⟩
    · have hget' : alistGet? rest k = some v := by
        simpa [alistGet?, List.find?_cons, hk] using hget
      have hnd' : (rest.map Prod.fst).Nodup := by
        simp [List.nodup_cons] at hnd
        exact hnd.2
      obtain ⟨l₁, l₂, heq, h₁, h₂⟩ := alist_split_of_get rest k v hnd' hget'
      exact ⟨(k₀, v₀) :: l₁, l₂, by simp [heq], by
        intro p hp
        rcases List.mem_cons.mp hp with hp | hp
        · subst hp; exact hk
        · exact h₁ p hp, h₂⟩

theorem map_fixed_points {α : Type} (f : α → α) :
    ∀ l : List α, (∀ a ∈ l, f a = a) → l.map f = l
  | [], _ => rfl
  | a :: l, h => by
    rw [List.map_cons, h a (by simp),
      map_fixed_points f l (fun b hb => h b (by simp [hb]))]

theorem alistInsert_of_split {κ α : Type} [DecidableEq κ]
    (l₁ l₂ : List (κ × α)) (k : κ) (vOld vNew : α)
    (h₁ : ∀ p ∈ l₁, p.1 ≠ k) (h₂ : ∀ p ∈ l₂, p.1 ≠ k) :
    alistInsert (l₁ ++ (k, vOld) :: l₂) k vNew = l₁ ++ (k, vNew) :: l₂ := by
  unfold alistInsert
  rw [if_pos]
  · rw [List.map_append, List.map_cons]
    congr 1
    · exact map_fixed_points _ l₁ (fun p hp => by rw [if_neg (h₁ p hp)])
    · rw [if_pos rfl]
      congr 1
      exact map_fixed_points _ l₂ (fun p hp => by rw [if_neg (h₂ p hp)])
  · simp only [List.any_eq_true, decide_eq_true_eq]
    exact ⟨(k, vOld), by simp, rfl⟩

theorem foldl_alistRemove_sublist {κ α : Type} [DecidableEq κ] :
    ∀ (names : List κ) (l : List (κ × α)),
      (names.foldl (fun u n => alistRemove u n) l).Sublist l
  | [], l => List.Sublist.refl l
  | n :: ns, l => by
    have h₁ : (alistRemove l n).Sublist l := List.filter_sublist l
    have h₂ := foldl_alistRemove_sublist ns (alistRemove l n)
    simpa [List.foldl_cons] using h₂.trans h₁

theorem walkStep_inv {instrs : List Instr} {i : Nat}
    {st : List (String × Nat) × List Nat} {instr : Instr}
    (hget : instrs[i]? = some instr) (inv : WalkInv instrs i st) :
    WalkInv instrs (i + 1) (walkStep i instr st) := by
  obtain ⟨uLt, uDef, dLt, dDef, kNd, dNd, sNd, disj⟩ := inv
  set u' := (genOf instr).foldl (fun u usage => alistRemove u usage) st.1
    with hu'
  have hsub : u'.Sublist st.1 := foldl_alistRemove_sublist _ _
  have hmem' : ∀ p ∈ u', p ∈ st.1 := fun p hp => hsub.subset hp
  have uLt' : ∀ p ∈ u', p.2 < i := fun p hp => uLt p (hmem' p hp)
  have uDef' : ∀ p ∈ u', DefIdx instrs p.2 := fun p hp => uDef p (hmem' p hp)
  have kNd' : (u'.map Prod.fst).Nodup := (hsub.map Prod.fst).nodup kNd
  have sNd' : (u'.map Prod.snd).Nodup := (hsub.map Prod.snd).nodup sNd
  have sSub : (u'.map Prod.snd).Sublist (st.1.map Prod.snd) :=
    hsub.map Prod.snd
  have disj' : ∀ j ∈ st.2, j ∉ u'.map Prod.snd := fun j hj hmem =>
    disj j hj (sSub.subset hmem)
  have sLt : ∀ x ∈ u'.map Prod.snd, x < i := by
    intro x hx
    obtain ⟨p, hp, hpx⟩ := List.mem_map.mp hx
    exact hpx ▸ uLt' p hp
  cases hkill : killOf instr with
  | none =>
    have hws : walkStep i instr st = (u', st.2) := by
      simp only [walkStep, hkill, ← hu']
    rw [hws]
    refine ⟨fun p hp => (uLt' p hp).trans (Nat.lt_succ_self i), uDef',
      fun j hj => (dLt j hj).trans (Nat.lt_succ_self i), dDef, kNd', dNd,
      sNd', disj'⟩
  | some k =>
    have hkDef : DefIdx instrs i := ⟨instr, hget, by rw [hkill]; rfl⟩
    cases hget2 : alistGet? u' k with
    | none =>
      have hfresh := keys_ne_of_alistGet?_eq_none hget2
      have hins : alistInsert u' k i = u' ++ [(k, i)] :=
        alistInsert_of_not_mem _ _ _ hfresh
      have hws : walkStep i instr st = (u' ++ [(k, i)], st.2) := by
        simp only [walkStep, hkill, ← hu', hget2, hins]
      rw [hws]
      refine ⟨?_, ?_, fun j hj => (dLt j hj).trans (Nat.lt_succ_self i),
        dDef, ?_, dNd, ?_, ?_⟩
      · intro p hp
        rcases List.mem_append.mp hp with hp | hp
        · exact (uLt' p hp).trans (Nat.lt_succ_self i)
        · simp at hp
          rw [hp]
          exact Nat.lt_succ_self i
      · intro p hp
        rcases List.mem_append.mp hp with hp | hp
        · exact uDef' p hp
        · simp at hp
          rw [hp]
          exact hkDef
      · rw [List.map_append]
        simp only [List.map_cons, List.map_nil]
        rw [List.nodup_append]
        refine ⟨kNd', List.nodup_singleton k, ?_⟩
        intro x hx
        obtain ⟨p, hp, hpx⟩ := List.mem_map.mp hx
        simp only [List.mem_singleton]
        intro hxk
        exact hfresh p hp (by rw [hpx, hxk])
      · rw [List.map_append]
        simp only [List.map_cons, List.map_nil]
        rw [List.nodup_append]
        refine ⟨sNd', List.nodup_singleton i, ?_⟩
        intro x hx
        simp only [List.mem_singleton]
        intro hxi
        exact absurd (hxi ▸ sLt x hx) (Nat.lt_irrefl i)
      · intro j hj
        rw [List.map_append]
        simp only [List.map_cons, List.map_nil]
        rw [List.mem_append]
        rintro (hmem | hmem)
        · exact disj' j hj hmem
        · simp at hmem
          exact absurd (hmem ▸ dLt j hj) (Nat.lt_irrefl i)
    | some j =>
      obtain ⟨l₁, l₂, hsplit, h₁, h₂⟩ := alist_split_of_get u' k j kNd' hget2
      have hins : alistInsert u' k i = l₁ ++ (k, i) :: l₂ := by
        rw [hsplit]
        exact alistInsert_of_split l₁ l₂ k j i h₁ h₂
      have hws : walkStep i instr st = (l₁ ++ (k, i) :: l₂, st.2 ++ [j]) := by
        simp only [walkStep, hkill, ← hu', hget2, hins]
      have hkj : (k, j) ∈ u' := by rw [hsplit]; simp
      have hjlt : j < i := uLt' (k, j) hkj
      have hjdef : DefIdx instrs j := uDef' (k, j) hkj
      have hjsnd : j ∈ u'.map Prod.snd := List.mem_map.mpr ⟨(k, j), hkj, rfl⟩
      have hsndSplit :
          u'.map Prod.snd = l₁.map Prod.snd ++ j :: l₂.map Prod.snd := by
        rw [hsplit, List.map_append, List.map_cons]
      have hmid := List.nodup_cons.mp (List.nodup_middle.mp (hsndSplit ▸ sNd'))
      have hsub₁ : ∀ p ∈ l₁, p ∈ u' := by
        intro p hp
        rw [hsplit]
        simp [hp]
      have hsub₂ : ∀ p ∈ l₂, p ∈ u' := by
        intro p hp
        rw [hsplit]
        simp [hp]
      rw [hws]
      refine ⟨?_, ?_, ?_, ?_, ?_, ?_, ?_, ?_⟩
      · intro p hp
        rcases List.mem_append.mp hp with hp | hp
        · exact (uLt' p (hsub₁ p hp)).trans (Nat.lt_succ_self i)
        · rcases List.mem_cons.mp hp with hp | hp
          · rw [hp]
            exact Nat.lt_succ_self i
          · exact (uLt' p (hsub₂ p hp)).trans (Nat.lt_succ_self i)
      · intro p hp
        rcases List.mem_append.mp hp with hp | hp
        · exact uDef' p (hsub₁ p hp)
        · rcases List.mem_cons.mp hp with hp | hp
          · rw [hp]
            exact hkDef
          · exact uDef' p (hsub₂ p hp)
      · intro x hx
        rcases List.mem_append.mp hx with hx | hx
        · exact (dLt x hx).trans (Nat.lt_succ_self i)
        · simp at hx
          rw [hx]
          exact hjlt.trans (Nat.lt_succ_self i)
      · intro x hx
        rcases List.mem_append.mp hx with hx | hx
        · exact dDef x hx
        · simp at hx
          rw [hx]
          exact hjdef
      · have : (l₁ ++ (k, i) :: l₂).map Prod.fst
            = (l₁ ++ (k, j) :: l₂).map Prod.fst := by
          simp [List.map_append]
        rw [this, ← hsplit]
        exact kNd'
      · rw [List.nodup_append]
        refine ⟨dNd, List.nodup_singleton j, ?_⟩
        intro x hx
        simp only [List.mem_singleton]
        intro hxj
        exact disj' x hx (hxj ▸ hjsnd)
      · have : (l₁ ++ (k, i) :: l₂).map Prod.snd
            = l₁.map Prod.snd ++ i :: l₂.map Prod.snd := by
          simp [List.map_append]
        rw [this, List.nodup_middle, List.nodup_cons]
        refine ⟨?_, hmid.2⟩
        intro hmem
        have : i ∈ u'.map Prod.snd := by
          rw [hsndSplit]
          rcases List.mem_append.mp hmem with h | h
          · exact List.mem_append.mpr (Or.inl h)
          · exact List.mem_append.mpr (Or.inr (List.mem_cons.mpr (Or.inr h)))
        exact absurd (sLt i this) (Nat.lt_irrefl i)
      · intro x hx
        have hxlt : x < i := by
          rcases List.mem_append.mp hx with hx | hx
          · exact dLt x hx
          · simp at hx
            rw [hx]
            exact hjlt
        have hxnotin : x ∉ l₁.map Prod.snd ++ l₂.map Prod.snd := by
          rcases List.mem_append.mp hx with hx | hx
          · intro hmem
            apply disj' x hx
            rw [hsndSplit]
            rcases List.mem_append.mp hmem with h | h
            · exact List.mem_append.mpr (Or.inl h)
            · exact List.mem_append.mpr
                (Or.inr (List.mem_cons.mpr (Or.inr h)))
          · simp at hx
            rw [hx]
            exact hmid.1
        have : (l₁ ++ (k, i) :: l₂).map Prod.snd
            = l₁.map Prod.snd ++ i :: l₂.map Prod.snd := by
          simp [List.map_append]
        rw [this]
        intro hmem
        rcases List.mem_append.mp hmem with h | h
        · exact hxnotin (List.mem_append.mpr (Or.inl h))
        · rcases List.mem_cons.mp h with h | h
          · exact absurd (h ▸ hxlt) (Nat.lt_irrefl i)
          · exact hxnotin (List.mem_append.mpr (Or.inr h))

theorem walk_inv {instrs : List Instr} :
    ∀ (rest : List Instr) (i : Nat) (st : List (String × Nat) × List Nat),
      (∀ n : Nat, rest[n]? = instrs[i + n]?) →
      WalkInv instrs i st →
      WalkInv instrs (i + rest.length) (walk i rest st)
  | [], i, st, _, inv => by simpa [walk] using inv
  | instr :: rest, i, st, hidx, inv => by
    have hget : instrs[i]? = some instr := by
      have h := hidx 0
      simpa using h.symm
    have hnext : ∀ n : Nat, rest[n]? = instrs[i + 1 + n]? := by
      intro n
      have h := hidx (n + 1)
      have harith : i + (n + 1) = i + 1 + n := by omega
      rw [harith] at h
      simpa using h
    have hrec := walk_inv rest (i + 1) (walkStep i instr st) hnext
      (walkStep_inv hget inv)
    have harith : i + 1 + rest.length = i + (instr :: rest).length := by
      simp
      omega
    rw [harith] at hrec
    simpa [walk] using hrec

theorem walk_dead_props (instrs : List Instr) :
    (walk 0 instrs ([], [])).2.Nodup ∧
      ∀ j ∈ (walk 0 instrs ([], [])).2, DefIdx instrs j := by
  have hinit : WalkInv instrs 0 ([], []) := by
    refine ⟨?_, ?_, ?_, ?_, ?_, ?_, ?_, ?_⟩ <;> simp
  have hidx : ∀ n : Nat, instrs[n]? = instrs[0 + n]? := by
    intro n
    simp
  have h := walk_inv instrs 0 ([], []) hidx hinit
  exact ⟨h.deadNodup, h.deadDef⟩

theorem filter_removeIndicesDesc :
    ∀ (ds : List Nat) (l : List Instr),
      ds.Pairwise (fun a b => a > b) →
      (∀ j ∈ ds, ∀ a, l[j]? = some a → isEffect a = false) →
      (removeIndicesDesc ds l).filter isEffect = l.filter isEffect
  | [], _, _, _ => rfl
  | d :: ds, l, hpair, htarg => by
    have h₁ : (l.eraseIdx d).filter isEffect = l.filter isEffect :=
      filter_eraseIdx_of_target _ l d (htarg d (by simp))
    have hlt : ∀ j ∈ ds, j < d := (List.pairwise_cons.mp hpair).1
    have htarg' : ∀ j ∈ ds, ∀ a, (l.eraseIdx d)[j]? = some a →
        isEffect a = false := by
      intro j hj a ha
      rw [List.getElem?_eraseIdx_of_lt l d j (hlt j hj)] at ha
      exact htarg j (by simp [hj]) a ha
    have hrec := filter_removeIndicesDesc ds (l.eraseIdx d)
      (List.Pairwise.of_cons hpair) htarg'
    rw [removeIndicesDesc, hrec, h₁]

/-- C10: neither dead-code-elimination sweep removes an `Effect` instruction.
For every block, the subsequence of `Effect` instructions (in order) is the
same before and after the global unused-destination sweep
(`trivial_dead_code_elimination`) and before and after the local
kill-before-use sweep (`drop_killed_locals`); only `Const`/`Value`
instructions are deleted. -/
theorem c10_dce_preserves_effect_instructions
    (blocks : List (Nat × BasicBlock)) (block : BasicBlock) :
    ((trivialDeadCodeElimination blocks).1.map
        (fun p => (p.1, p.2.instructions.filter isEffect)))
      = blocks.map (fun p => (p.1, p.2.instructions.filter isEffect))
    ∧ (dropKilledLocals block).1.instructions.filter isEffect
      = block.instructions.filter isEffect := by
  constructor
  · simp only [trivialDeadCodeElimination, List.map_map]
    apply List.map_congr_left
    intro p _
    simp only [Function.comp]
    rw [filter_filter_of_imp _ _
      (fun a ha => keepInstr_of_isEffect ha) p.2.instructions]
  · simp only [dropKilledLocals]
    obtain ⟨hnd, hdef⟩ := walk_dead_props block.instructions
    set dead := (walk 0 block.instructions ([], [])).2 with hdead
    set sorted := insertionSortB (fun a b => decide (a ≤ b)) dead
      with hsorted
    have hperm : sorted.Perm dead := insertionSortB_perm _ dead
    have hsortedNd : sorted.Nodup := hperm.nodup_iff.mpr hnd
    have hpairLe : sorted.Pairwise (fun a b => decide (a ≤ b) = true) :=
      insertionSortB_pairwise (fun a b => decide (a ≤ b))
        (fun a b c hab hbc => by
          simp only [decide_eq_true_eq] at hab hbc ⊢
          exact Nat.le_trans hab hbc)
        (fun a b => by
          rcases Nat.le_total a b with h | h <;> simp [h])
        dead
    have hpairLt : sorted.Pairwise (fun a b : Nat => a < b) := by
      have hand := hpairLe.and hsortedNd
      exact hand.imp (fun h => by
        obtain ⟨hle, hne⟩ := h
        simp only [decide_eq_true_eq] at hle
        exact Nat.lt_of_le_of_ne hle hne)
    have hrev : sorted.reverse.Pairwise (fun a b : Nat => a > b) := by
      rw [List.pairwise_reverse]
      exact hpairLt
    apply filter_removeIndicesDesc sorted.reverse block.instructions hrev
    intro j hj a ha
    have hjdead : j ∈ dead := hperm.mem_iff.mp (List.mem_reverse.mp hj)
    obtain ⟨ins, hins, hkill⟩ := hdef j hjdead
    rw [hins] at ha
    obtain ⟨k, hk⟩ := Option.isSome_iff_exists.mp hkill
    cases ha
    exact isEffect_eq_false_of_kill hk

/-- C8 counterexample: on `a = const (2^63-1); b = const 1; c = add a b`,
LVN emits `c = const (-2^63)` — the wrapped i64 sum, not the exact sum
`2^63`; and on a repeated `add` whose arguments all resolve to integer
literals in the constant-folding table, the instruction becomes an `id`
copy, not a `Const`. -/
theorem c8_lvn_add_exact_sum_counterexample :
    (lvn lvnOverflowBlock).map (fun b => b.instructions)
      = some [.const "a" .int (.int 9223372036854775807),
          .const "b" .int (.int 1),
          .const "c" .int (.int (-9223372036854775808))]
    ∧ (-9223372036854775808 : Int) ≠ 9223372036854775807 + 1
    ∧ (lvn lvnCseBlock).map (fun b => b.instructions)
      = some [.const "a" .int (.int 2), .const "b" .int (.int 3),
          .const "c" .int (.int 5),
          .value "d" .id ["c"] [] [] .int] :=
  ⟨by decide, by decide, by decide⟩

/-- C8 (amended): in LVN, an `add` `Value` instruction whose canonical value
misses the table and whose (sorted) arguments all resolve to integer
`Literal`s in the constant-folding table is replaced by a `Const` holding the
two's-complement 64-bit wrapping sum of the operands — which is the exact sum
whenever that sum is representable in i64 (so `c = add a b` after
`a = const 2; b = const 3` becomes `c = const 5`); an `add` whose canonical
value is already interned is instead rewritten to an `id` of the canonical
variable. -/
theorem c8_lvn_add_folding :
    (∀ (table : ValueTable) (last : List (String × Nat)) (i lastIdx : Nat)
      (dest : String) (args funcs labels : List String) (ty : Ty) (a b : Int),
      alistGet? last dest = some lastIdx →
      collectConstants table
          (insertionSortB opArgLe (args.map (lvnArg table)))
        = some [Lit.int a, Lit.int b] →
      alistGet? table.intern
        (LvnValue.op .add (insertionSortB opArgLe (args.map (lvnArg table))))
        = none →
      (∃ tbl d, lvnStep table last i (.value dest .add args funcs labels ty)
          = some (tbl, .const d ty (.int (wrap64 (a + b)))))
      ∧ (-(2 ^ 63) ≤ a + b → a + b < 2 ^ 63 → wrap64 (a + b) = a + b))
    ∧ (∀ (table : ValueTable) (last : List (String × Nat)) (i lastIdx j : Nat)
      (dest : String) (args funcs labels : List String) (ty : Ty),
      alistGet? last dest = some lastIdx →
      alistGet? table.intern
        (LvnValue.op .add (insertionSortB opArgLe (args.map (lvnArg table))))
        = some j →
      ∃ tbl, lvnStep table last i (.value dest .add args funcs labels ty)
        = some (tbl, .value dest .id
            [table.getCanonicalName (OpArg.value j)] [] [] ty)) := by
  constructor
  · intro table last i lastIdx dest args funcs labels ty a b hlast hints hmiss
    constructor
    · have hsum : wrapSum [a, b] = wrap64 (a + b) := by
        simp only [wrapSum, List.foldl]
        unfold wrap64
        omega
      simp only [collectConstants] at hints
      simp only [lvnStep, hlast, isCommutativeOp, if_true,
        ValueTable.addValueAndGetExistingVariable, hmiss,
        collectConstants, hints]
      simp only [collectInts, Option.map, hsum]
      exact ⟨_, _, rfl⟩
    · intro h1 h2
      unfold wrap64
      omega
  · intro table last i lastIdx j dest args funcs labels ty hlast hhit
    simp only [lvnStep, hlast, isCommutativeOp, if_true,
      ValueTable.addValueAndGetExistingVariable, hhit,
      ValueTable.getCanonicalName]
    exact ⟨_, rfl⟩

/-- Witness for the C8 theorem: both branches instantiated on the concrete
table states reached after `a = const 2; b = const 3` (and after the first
`c = add a b`). -/
theorem c8_lvn_add_folding_witness :
    ((∃ tbl d, lvnStep lvnTableAfterConsts [("c", 2)] 2
        (Instr.value "c" .add ["a", "b"] [] [] .int)
        = some (tbl, .const d .int (.int (wrap64 (2 + 3)))))
      ∧ (-(2 ^ 63) ≤ (2 : Int) + 3 → (2 : Int) + 3 < 2 ^ 63 →
          wrap64 ((2 : Int) + 3) = 2 + 3))
    ∧ (∃ tbl, lvnStep lvnTableAfterAdd [("d", 3)] 3
        (.value "d" .add ["a", "b"] [] [] .int)
        = some (tbl, .value "d" .id
            [lvnTableAfterAdd.getCanonicalName (OpArg.value 2)] [] [] .int)) :=
  ⟨c8_lvn_add_folding.1 lvnTableAfterConsts [("c", 2)] 2 2 "c" ["a", "b"]
      [] [] .int 2 3 (by decide) (by decide) (by decide),
    c8_lvn_add_folding.2 lvnTableAfterAdd [("d", 3)] 3 3 2 "d" ["a", "b"]
      [] [] .int (by decide) (by decide)⟩

theorem convertSetInstrs_cons_pass (types : List (String × Ty))
    (instr : Instr) (rest : List Instr) (h : isSetInstr instr = false) :
    convertSetInstrs types (instr :: rest)
      = (instr :: (convertSetInstrs types rest).1,
        (convertSetInstrs types rest).2) := by
  cases instr with
  | const dest ty value => simp [convertSetInstrs]
  | value dest op args funcs labels ty => simp [convertSetInstrs]
  | effect op args funcs labels =>
    cases op <;> simp [convertSetInstrs, isSetInstr] at h ⊢

theorem convertSetInstrs_cons_set_hit (types : List (String × Ty))
    (d s : String) (funcs labels : List String) (rest : List Instr)
    (ty : Ty) (hty : alistGet? types d = some ty) :
    convertSetInstrs types (.effect .set [d, s] funcs labels :: rest)
      = (Instr.value d .id [s] [] [] ty :: (convertSetInstrs types rest).1,
        (convertSetInstrs types rest).2) := by
  simp [convertSetInstrs, hty]

theorem convertSetInstrs_success (types : List (String × Ty)) :
    ∀ l : List Instr,
      (∀ instr ∈ l, setHasTypedGet types instr = true) →
      (convertSetInstrs types l).2 = none
      ∧ ∀ instr ∈ (convertSetInstrs types l).1,
          isSetInstr instr = false ∧ (isGetInstr instr = true → instr ∈ l)
  | [], _ => ⟨rfl, by intro instr h; simp [convertSetInstrs] at h⟩
  | instr :: rest, h => by
    have hrest := convertSetInstrs_success types rest
      (fun i hi => h i (List.mem_cons.mpr (Or.inr hi)))
    by_cases hset : isSetInstr instr = true
    · obtain ⟨args, funcs, labels, rfl⟩ :
          ∃ args funcs labels, instr = Instr.effect .set args funcs labels := by
        cases instr with
        | const dest ty value => simp [isSetInstr] at hset
        | value dest op args funcs labels ty => simp [isSetInstr] at hset
        | effect op args funcs labels =>
          cases op <;> simp [isSetInstr] at hset
          exact ⟨args, funcs, labels, rfl⟩
      have hhead := h _ (List.mem_cons_self _ _)
      rcases args with _ | ⟨d, _ | ⟨s, _ | ⟨x, xs⟩⟩⟩ <;>
        simp [setHasTypedGet] at hhead
      obtain ⟨ty, hty⟩ := Option.isSome_iff_exists.mp hhead
      rw [convertSetInstrs_cons_set_hit types d s funcs labels rest ty hty]
      refine ⟨hrest.1, ?_⟩
      intro i hi
      rcases List.mem_cons.mp hi with rfl | hi
      · exact ⟨rfl, by intro hg; simp [isGetInstr] at hg⟩
      · exact ⟨(hrest.2 i hi).1,
          fun hg => List.mem_cons.mpr (Or.inr ((hrest.2 i hi).2 hg))⟩
    · rw [convertSetInstrs_cons_pass types instr rest
        (Bool.not_eq_true _ ▸ Bool.of_not_eq_true hset)]
      refine ⟨hrest.1, ?_⟩
      intro i hi
      rcases List.mem_cons.mp hi with rfl | hi
      · exact ⟨Bool.of_not_eq_true hset,
          fun _ => List.mem_cons.mpr (Or.inl rfl)⟩
      · exact ⟨(hrest.2 i hi).1,
          fun hg => List.mem_cons.mpr (Or.inr ((hrest.2 i hi).2 hg))⟩

theorem convertSetInstrs_failure (types : List (String × Ty)) :
    ∀ l : List Instr, (convertSetInstrs types l).2.isSome = true →
      ∃ instr ∈ l, isSetInstr instr = true
        ∧ setHasTypedGet types instr = false
  | [], h => by simp [convertSetInstrs] at h
  | instr :: rest, h => by
    by_cases hset : isSetInstr instr = true
    · obtain ⟨args, funcs, labels, rfl⟩ :
          ∃ args funcs labels, instr = Instr.effect .set args funcs labels := by
        cases instr with
        | const dest ty value => simp [isSetInstr] at hset
        | value dest op args funcs labels ty => simp [isSetInstr] at hset
        | effect op args funcs labels =>
          cases op <;> simp [isSetInstr] at hset
          exact ⟨args, funcs, labels, rfl⟩
      rcases args with _ | ⟨d, _ | ⟨s, _ | ⟨x, xs⟩⟩⟩
      · exact ⟨_, List.mem_cons_self _ _, hset, by simp [setHasTypedGet]⟩
      · exact ⟨_, List.mem_cons_self _ _, hset, by simp [setHasTypedGet]⟩
      · cases hty : alistGet? types d with
        | some ty =>
          rw [convertSetInstrs_cons_set_hit types d s funcs labels rest ty
            hty] at h
          obtain ⟨i, hi, hs, hb⟩ := convertSetInstrs_failure types rest h
          exact ⟨i, List.mem_cons.mpr (Or.inr hi), hs, hb⟩
        | none =>
          exact ⟨_, List.mem_cons_self _ _, hset,
            by simp [setHasTypedGet, hty]⟩
      · exact ⟨_, List.mem_cons_self _ _, hset, by simp [setHasTypedGet]⟩
    · rw [convertSetInstrs_cons_pass types instr rest
        (Bool.not_eq_true _ ▸ Bool.of_not_eq_true hset)] at h
      obtain ⟨i, hi, hs, hb⟩ := convertSetInstrs_failure types rest h
      exact ⟨i, List.mem_cons.mpr (Or.inr hi), hs, hb⟩

theorem fromSsaBlocks_success (types : List (String × Ty)) :
    ∀ blocks : List (Nat × BasicBlock),
      (∀ p ∈ blocks, ∀ instr ∈ p.2.instructions,
        setHasTypedGet types instr = true) →
      (fromSsaBlocks types blocks).2 = none
      ∧ ∀ p ∈ (fromSsaBlocks types blocks).1, ∀ instr ∈ p.2.instructions,
          isSetInstr instr = false ∧ isGetInstr instr = false
  | [], _ => ⟨rfl, by intro p hp; simp [fromSsaBlocks] at hp⟩
  | (k, b) :: rest, h => by
    have hhyp : ∀ instr ∈ b.instructions.filter (fun i => !isGetInstr i),
        setHasTypedGet types instr = true :=
      fun i hi =>
        h (k, b) (List.mem_cons_self _ _) i (List.mem_of_mem_filter hi)
    have hconv := convertSetInstrs_success types _ hhyp
    have hrest := fromSsaBlocks_success types rest
      (fun p hp => h p (List.mem_cons.mpr (Or.inr hp)))
    simp only [fromSsaBlocks, hconv.1]
    refine ⟨hrest.1, ?_⟩
    intro p hp instr hinstr
    rcases List.mem_cons.mp hp with rfl | hp
    · have hmem := hconv.2 instr hinstr
      refine ⟨hmem.1, ?_⟩
      by_cases hg : isGetInstr instr = true
      · have := List.of_mem_filter (hmem.2 hg)
        rw [hg] at this
        simp at this
      · exact Bool.of_not_eq_true hg
    · exact hrest.2 p hp instr hinstr

theorem fromSsaBlocks_failure (types : List (String × Ty)) :
    ∀ blocks : List (Nat × BasicBlock),
      (fromSsaBlocks types blocks).2.isSome = true →
      ∃ p ∈ blocks, ∃ instr ∈ p.2.instructions,
        isSetInstr instr = true ∧ setHasTypedGet types instr = false
  | [], h => by simp [fromSsaBlocks] at h
  | (k, b) :: rest, h => by
    cases herr :
        (convertSetInstrs types
          (b.instructions.filter (fun i => !isGetInstr i))).2 with
    | some e =>
      obtain ⟨i, hi, hs, hb⟩ :=
        convertSetInstrs_failure types _ (by rw [herr]; rfl)
      exact ⟨(k, b), List.mem_cons_self _ _, i, List.mem_of_mem_filter hi,
        hs, hb⟩
    | none =>
      simp only [fromSsaBlocks, herr] at h
      obtain ⟨p, hp, i, hi, hs, hb⟩ := fromSsaBlocks_failure types rest h
      exact ⟨p, List.mem_cons.mpr (Or.inr hp), i, hi, hs, hb⟩

/-- C9 counterexample: on a CFG with a `get y` in one block and a
`set [d, s]` without matching `get d` in another, `from_ssa` returns the
diagnostic but the CFG has already been mutated (the `get` was removed) —
the transform is not atomic; and on an input that is not strict SSA but has
no `set`s, `from_ssa` succeeds: there is no strict-SSA precondition check. -/
theorem c9_from_ssa_not_atomic_counterexample :
    (fromSsa c9ErrCfg).2
      = some "The corresponding get instruction does not exist or did not specify a type"
    ∧ (fromSsa c9ErrCfg).1 ≠ c9ErrCfg
    ∧ (fromSsa c9NonSsaCfg).2 = none
    ∧ isSsa c9NonSsaCfg = false :=
  ⟨by decide, by decide, by decide, by decide⟩

/-- C9 (amended): when every `set` in the CFG has two arguments whose first
carries a recorded `get` type, `from_ssa` succeeds, removing every `get` and
replacing every `set` by an `id`; when it fails (with the diagnostic), the
failure is caused by a `set` without a matching typed `get` (or with wrong
arity) — but the CFG may be left partially transformed, and no strict-SSA
precondition is checked. -/
theorem c9_from_ssa_failure_and_success :
    (∀ cfg : FunctionCfg,
      (∀ p ∈ cfg.vertices, ∀ instr ∈ p.2.instructions,
        setHasTypedGet (setOperationTypes cfg) instr = true) →
      (fromSsa cfg).2 = none
      ∧ ∀ p ∈ (fromSsa cfg).1.vertices, ∀ instr ∈ p.2.instructions,
          isSetInstr instr = false ∧ isGetInstr instr = false)
    ∧ (∀ cfg : FunctionCfg, (fromSsa cfg).2.isSome = true →
      ∃ p ∈ cfg.vertices, ∃ instr ∈ p.2.instructions,
        isSetInstr instr = true
        ∧ setHasTypedGet (setOperationTypes cfg) instr = false) := by
  constructor
  · intro cfg h
    have := fromSsaBlocks_success (setOperationTypes cfg) cfg.vertices h
    exact ⟨this.1, this.2⟩
  · intro cfg h
    exact fromSsaBlocks_failure (setOperationTypes cfg) cfg.vertices h

/-- Witness for the C9 theorem at the concrete CFGs. -/
theorem c9_from_ssa_failure_and_success_witness :
    ((fromSsa c9OkCfg).2 = none
      ∧ ∀ p ∈ (fromSsa c9OkCfg).1.vertices, ∀ instr ∈ p.2.instructions,
          isSetInstr instr = false ∧ isGetInstr instr = false)
    ∧ (∃ p ∈ c9ErrCfg.vertices, ∃ instr ∈ p.2.instructions,
        isSetInstr instr = true
        ∧ setHasTypedGet (setOperationTypes c9ErrCfg) instr = false) :=
  ⟨c9_from_ssa_failure_and_success.1 c9OkCfg (by decide),
    c9_from_ssa_failure_and_success.2 c9ErrCfg (by decide)⟩

theorem alistGet?_map_replace_ne {κ α : Type} [DecidableEq κ]
    (k k' : κ) (v : α) (h : k' ≠ k) :
    ∀ l : List (κ × α),
      alistGet? (l.map (fun p => if p.1 = k then (p.1, v) else p)) k'
        = alistGet? l k'
  | [] => rfl
  | a :: l => by
    simp only [List.map_cons, alistGet?]
    by_cases hak : a.1 = k'
    · have hk : ¬a.1 = k := fun hc => h (hak.symm.trans hc)
      rw [if_neg hk]
      rw [List.find?_cons_of_pos _ (by simp [hak]),
        List.find?_cons_of_pos _ (by simp [hak])]
    · have hkey : ((if a.1 = k then ((a.1, v) : κ × α) else a)).1 = a.1 := by
        by_cases hc : a.1 = k <;> simp [hc]
      rw [List.find?_cons_of_neg _ (by simp only [hkey]; simp [hak]),
        List.find?_cons_of_neg _ (by simp [hak])]
      exact alistGet?_map_replace_ne k k' v h l

theorem alistGet?_map_replace_eq {κ α : Type} [DecidableEq κ]
    (k : κ) (v : α) :
    ∀ l : List (κ × α), (∃ p ∈ l, p.1 = k) →
      alistGet? (l.map (fun p => if p.1 = k then (p.1, v) else p)) k
        = some v
  | [], h => by simp at h
  | a :: l, h => by
    simp only [List.map_cons, alistGet?]
    by_cases hak : a.1 = k
    · rw [if_pos hak]
      rw [List.find?_cons_of_pos _ (by simp [hak])]
      rfl
    · rw [if_neg hak]
      rw [List.find?_cons_of_neg _ (by simp [hak])]
      have htail : ∃ p ∈ l, p.1 = k := by
        obtain ⟨q, hq, hqk⟩ := h
        rcases List.mem_cons.mp hq with rfl | hq'
        · exact absurd hqk hak
        · exact ⟨q, hq', hqk⟩
      exact alistGet?_map_replace_eq k v l htail

theorem alistGet?_append_right {κ α : Type} [DecidableEq κ]
    (l l' : List (κ × α)) (k : κ) (h : alistGet? l k = none) :
    alistGet? (l ++ l') k = alistGet? l' k := by
  unfold alistGet? at h ⊢
  rw [List.find?_append]
  cases hf : l.find? (fun p => decide (p.1 = k)) with
  | none => rfl
  | some q => rw [hf] at h; simp at h

theorem alistGet?_append_left {κ α : Type} [DecidableEq κ]
    (l l' : List (κ × α)) (k : κ) (w : α) (h : alistGet? l k = some w) :
    alistGet? (l ++ l') k = some w := by
  unfold alistGet? at h ⊢
  rw [List.find?_append]
  cases hf : l.find? (fun p => decide (p.1 = k)) with
  | none => rw [hf] at h; simp at h
  | some q => rw [hf] at h; simpa using h

theorem alistGet?_insert {κ α : Type} [DecidableEq κ]
    (l : List (κ × α)) (k k' : κ) (v : α) :
    alistGet? (alistInsert l k v) k'
      = if k' = k then some v else alistGet? l k' := by
  unfold alistInsert
  by_cases hmem : l.any (fun p => decide (p.1 = k)) = true
  · rw [if_pos hmem]
    obtain ⟨q, hq, hqk⟩ := List.any_eq_true.mp hmem
    simp only [decide_eq_true_eq] at hqk
    by_cases hk' : k' = k
    · subst hk'
      rw [if_pos rfl]
      exact alistGet?_map_replace_eq k' v l ⟨q, hq, hqk⟩
    · rw [if_neg hk']
      exact alistGet?_map_replace_ne k k' v hk' l
  · rw [if_neg hmem]
    have hnone : alistGet? l k = none := by
      unfold alistGet?
      rw [List.find?_eq_none.mpr]
      · rfl
      · intro p hp
        simp only [decide_eq_true_eq]
        intro hc
        exact hmem (List.any_eq_true.mpr ⟨p, hp, by simp [hc]⟩)
    by_cases hk' : k' = k
    · subst hk'
      rw [if_pos rfl, alistGet?_append_right l _ k' hnone]
      simp only [alistGet?]
      rw [List.find?_cons_of_pos _ (by simp)]
      rfl
    · rw [if_neg hk']
      cases hf : alistGet? l k' with
      | some w => rw [alistGet?_append_left l _ k' w hf]
      | none =>
        rw [alistGet?_append_right l _ k' hf]
        simp only [alistGet?]
        rw [List.find?_cons_of_neg _ (by
          simp only [decide_eq_true_eq]
          exact fun hc => hk' hc.symm)]
        rfl

theorem domPass_not_mem (cfg : FunctionCfg) :
    ∀ (order : List Nat) (doms : Nat → Finset Nat) (changed : Bool)
      (b : Nat), b ∉ order → (domPass cfg order doms changed).1 b = doms b
  | [], _, _, _, _ => rfl
  | blockIdx :: order, doms, changed, b, hb => by
    have hne : b ≠ blockIdx := fun h => hb (h ▸ List.mem_cons_self _ _)
    have hb' : b ∉ order := fun h => hb (List.mem_cons.mpr (Or.inr h))
    simp only [domPass]
    rw [domPass_not_mem cfg order _ _ b hb']
    simp [hne]

theorem domPass_self_mem (cfg : FunctionCfg) (keys : List Nat) :
    ∀ (order : List Nat) (doms : Nat → Finset Nat) (changed : Bool),
      (∀ b ∈ keys, b ∈ doms b) →
      ∀ b ∈ keys, b ∈ (domPass cfg order doms changed).1 b
  | [], _, _, h => h
  | blockIdx :: order, doms, changed, h => by
    simp only [domPass]
    apply domPass_self_mem cfg keys order _ _ ?_
    intro b hb
    by_cases hbe : b = blockIdx
    · subst hbe
      simp
    · simp only [if_neg hbe]
      exact h b hb

theorem domIterate_not_mem (cfg : FunctionCfg) (order : List Nat) :
    ∀ (fuel : Nat) (doms : Nat → Finset Nat) (b : Nat),
      b ∉ order → domIterate cfg order fuel doms b = doms b
  | 0, _, _, _ => rfl
  | fuel + 1, doms, b, hb => by
    simp only [domIterate]
    by_cases hch : (domPass cfg order doms false).2 = true
    · rw [if_pos hch, domIterate_not_mem cfg order fuel _ b hb,
        domPass_not_mem cfg order doms false b hb]
    · rw [if_neg hch, domPass_not_mem cfg order doms false b hb]

theorem domIterate_self_mem (cfg : FunctionCfg) (keys : List Nat)
    (order : List Nat) :
    ∀ (fuel : Nat) (doms : Nat → Finset Nat),
      (∀ b ∈ keys, b ∈ doms b) →
      ∀ b ∈ keys, b ∈ domIterate cfg order fuel doms b
  | 0, _, h => h
  | fuel + 1, doms, h => by
    simp only [domIterate]
    by_cases hch : (domPass cfg order doms false).2 = true
    · rw [if_pos hch]
      exact domIterate_self_mem cfg keys order fuel _
        (domPass_self_mem cfg keys order doms false h)
    · rw [if_neg hch]
      exact domPass_self_mem cfg keys order doms false h

theorem postorderGo_reachable (cfg : FunctionCfg) :
    ∀ (fuel : Nat) (current : Nat) (st : List Nat × List Nat),
      Reachable cfg current →
      (∀ x ∈ st.1, Reachable cfg x) →
      (∀ x ∈ st.2, Reachable cfg x) →
      (∀ x ∈ (postorderGo cfg fuel current st).1, Reachable cfg x)
      ∧ (∀ x ∈ (postorderGo cfg fuel current st).2, Reachable cfg x)
  | 0, _, st, _, h1, h2 => ⟨h1, h2⟩
  | fuel + 1, current, st, hcur, h1, h2 => by
    simp only [postorderGo]
    have hsuccs : ∀ s ∈ cfg.successors current, Reachable cfg s :=
      fun s hs => Reachable.step hcur hs
    have hstart : (∀ x ∈ current :: st.1, Reachable cfg x)
        ∧ (∀ x ∈ st.2, Reachable cfg x) := by
      refine ⟨?_, h2⟩
      intro x hx
      rcases List.mem_cons.mp hx with rfl | hx
      · exact hcur
      · exact h1 x hx
    have hfold :
        ∀ (ss : List Nat) (st' : List Nat × List Nat),
          (∀ s ∈ ss, Reachable cfg s) →
          (∀ x ∈ st'.1, Reachable cfg x) →
          (∀ x ∈ st'.2, Reachable cfg x) →
          (∀ x ∈ (ss.foldl
              (fun (st : List Nat × List Nat) successor =>
                if st.1.contains successor then st
                else postorderGo cfg fuel successor st) st').1,
            Reachable cfg x)
          ∧ (∀ x ∈ (ss.foldl
              (fun (st : List Nat × List Nat) successor =>
                if st.1.contains successor then st
                else postorderGo cfg fuel successor st) st').2,
            Reachable cfg x) := by
      intro ss
      induction ss with
      | nil => exact fun st' _ ha hb => ⟨ha, hb⟩
      | cons s ss ih =>
        intro st' hss ha hb
        rw [List.foldl_cons]
        by_cases hv : st'.1.contains s
        · rw [if_pos hv]
          exact ih st' (fun x hx => hss x (List.mem_cons.mpr (Or.inr hx)))
            ha hb
        · rw [if_neg hv]
          have hrec := postorderGo_reachable cfg fuel s st'
            (hss s (List.mem_cons_self _ _)) ha hb
          exact ih _ (fun x hx => hss x (List.mem_cons.mpr (Or.inr hx)))
            hrec.1 hrec.2
    have hres := hfold (cfg.successors current) (current :: st.1, st.2)
      hsuccs hstart.1 hstart.2
    refine ⟨hres.1, ?_⟩
    intro x hx
    rcases List.mem_append.mp hx with hx | hx
    · exact hres.2 x hx
    · simp at hx
      rw [hx]
      exact hcur

theorem constructPostorder_reachable (cfg : FunctionCfg) (b : Nat)
    (h : b ∈ constructPostorder cfg) : Reachable cfg b := by
  have := postorderGo_reachable cfg
    (cfg.vertices.length + cfg.edges.length + 2) cfg.entry ([], [])
    Reachable.entry (by simp) (by simp)
  exact this.2 b h

/-- C7 counterexample: on `@f \x7b ret; .a: ret; \x7d`, block 1 is a
non-entry block with zero predecessors (in particular unreachable), but
`compute_dominators` returns `dom[1] = \x7b0, 1\x7d` (all blocks), not
`\x7b1\x7d`. -/
theorem c7_unreachable_dom_counterexample :
    computeDominators cfgUnreach 10 1 = {0, 1}
    ∧ ({0, 1} : Finset Nat) ≠ {1}
    ∧ (1 : Nat) ≠ cfgUnreach.entry
    ∧ cfgUnreach.predecessors 1 = [] :=
  ⟨by decide, by decide, by decide, by decide⟩

/-- C7 (amended): `compute_dominators` returns `dom[entry] = \x7bentry\x7d`
and `b ∈ dom[b]` for every vertex `b`; but a non-entry block that is
unreachable from the entry is never visited by the update loop (which walks
a reverse postorder of the reachable blocks only) and keeps its
initialization `dom[b] = all_blocks`, not `\x7bb\x7d`. -/
theorem c7_compute_dominators_amended :
    ∀ (cfg : FunctionCfg) (fuel : Nat),
      computeDominators cfg fuel cfg.entry = {cfg.entry}
      ∧ (∀ b ∈ cfg.vertices.map Prod.fst,
          b ∈ computeDominators cfg fuel b)
      ∧ (∀ b : Nat, b ≠ cfg.entry → ¬Reachable cfg b →
          computeDominators cfg fuel b
            = (cfg.vertices.map Prod.fst).toFinset) := by
  intro cfg fuel
  simp only [computeDominators]
  refine ⟨?_, ?_, ?_⟩
  · have hnotin : cfg.entry ∉
        (constructPostorder cfg).reverse.filter
          (fun idx => idx != cfg.entry) := by
      intro h
      have := List.of_mem_filter h
      simp at this
    rw [domIterate_not_mem cfg _ fuel _ cfg.entry hnotin]
    simp
  · intro b hb
    apply domIterate_self_mem cfg (cfg.vertices.map Prod.fst) _ fuel _ ?_ b hb
    intro x hx
    by_cases hxe : x = cfg.entry
    · subst hxe
      simp
    · simp only [if_neg hxe]
      exact List.mem_toFinset.mpr hx
  · intro b hbe hbr
    have hno : b ∉
        (constructPostorder cfg).reverse.filter
          (fun idx => idx != cfg.entry) := by
      intro h
      exact hbr (constructPostorder_reachable cfg b
        (List.mem_reverse.mp (List.mem_of_mem_filter h)))
    rw [domIterate_not_mem cfg _ fuel _ b hno]
    simp [hbe]

/-- Witness: the amended dominator facts instantiated on the concrete
two-block function with an unreachable block. -/
theorem c7_compute_dominators_amended_witness :
    computeDominators cfgUnreach 10 cfgUnreach.entry = {cfgUnreach.entry}
    ∧ 0 ∈ computeDominators cfgUnreach 10 0
    ∧ computeDominators cfgUnreach 10 1
        = (cfgUnreach.vertices.map Prod.fst).toFinset :=
  ⟨(c7_compute_dominators_amended cfgUnreach 10).1,
    (c7_compute_dominators_amended cfgUnreach 10).2.1 0 (by decide),
    (c7_compute_dominators_amended cfgUnreach 10).2.2 1 (by decide)
      (by
        intro h
        have hsucc : ∀ a : Nat, cfgUnreach.successors a = [] := by
          intro a
          by_cases h0 : a = 0
          · subst h0
            decide
          · by_cases h1 : a = 1
            · subst h1
              decide
            · simp only [cfgUnreach, FunctionCfg.successors,
                FunctionCfg.getEdge, alistGet?, List.find?]
              rw [decide_eq_false (fun hc => h0 hc.symm),
                decide_eq_false (fun hc => h1 hc.symm)]
              rfl
        cases h with
        | step hr hs =>
          rw [hsucc] at hs
          simp at hs)⟩

/-- C2: `determine_phi_insertion_points` does not compute the iterated
dominance-frontier closure.  With one definition site `b0` and
`df(b0) = \x7bb1\x7d`, `df(b1) = \x7bb2\x7d`, the worklist (which is only
popped, never extended with the discovered frontier blocks) yields phi sites
`\x7bb1\x7d`, while the iterated closure demanded by the claim and the spec
is `\x7bb1, b2\x7d`. -/
theorem c2_phi_points_single_round_not_closure :
    determinePhiInsertionPoints [("x", (Ty.int, [0]))] dfC2
      = [("x", (Ty.int, {1}))]
    ∧ iteratedDfClosure dfC2 [0, 1, 2] 10 [0] ∅ = {1, 2}
    ∧ ({1} : Finset Nat) ≠ {1, 2} :=
  ⟨by decide, by decide, by decide⟩

/-- C5: the loop optimizer tests `dominance_tree[end].contains(&start)` (the
immediate-dominator tree), not `dom[t]`.  On `@f \x7b jmp .L; .L: jmp .L; \x7d`
the self-loop `(1, 1)` is an edge whose target dominates its source
(`1 ∈ dom[1]`), yet the scan reports no back edges at all. -/
theorem c5_back_edges_use_tree_not_dominators :
    backEdges cfgSelfLoop
        (computeDominatorTree (cfgSelfLoop.vertices.map Prod.fst)
          (computeDominators cfgSelfLoop 10)) = []
    ∧ 1 ∈ computeDominators cfgSelfLoop 10 1
    ∧ 1 ∈ cfgSelfLoop.successors 1 :=
  ⟨by decide, by decide, by decide⟩

/-- C1: whenever the `--into-ssa` pipeline completes and emits a CFG — phi
insertion, the (abstracted) renaming stage, and then the
`assert!(ssa::is_ssa(&cfg))` validation pass before printing — every
destination in the emitted CFG is defined at most once (strict SSA). -/
theorem c1_into_ssa_emits_only_strict_ssa :
    ∀ (fuel : Nat) (prep renameStage : FunctionCfg → FunctionCfg)
      (cfg out : FunctionCfg),
      intoSsaPipeline fuel prep renameStage cfg = some out →
      ∀ d : String, (allDests out).count d ≤ 1 := by
  intro fuel prep renameStage cfg out h d
  simp only [intoSsaPipeline] at h
  split at h
  next hssa =>
    cases h
    unfold isSsa at hssa
    exact List.nodup_iff_count_le_one.mp (of_decide_eq_true hssa) d
  next => cases h

/-- Witness: the pipeline emits the one-definition CFG unchanged, and its
destination count is at most one. -/
theorem c1_into_ssa_emits_only_strict_ssa_witness :
    intoSsaPipeline 1 id id ssaWitnessCfg = some ssaWitnessCfg
    ∧ (allDests ssaWitnessCfg).count "x" ≤ 1 :=
  ⟨by decide,
    c1_into_ssa_emits_only_strict_ssa 1 id id ssaWitnessCfg ssaWitnessCfg
      (by decide) "x"⟩

/-! ## C4: pruning is a single pass, not a transitive closure -/

theorem buildCfg_prune_eq (name : String) (args : List (String × Ty))
    (ret : Option Ty) (codes : List Code) :
    buildCfg name args ret codes true
      = (buildCfg name args ret codes false).map pruneCfg := by
  simp only [buildCfg]
  cases hf : codes.foldlM buildStep
      ((FunctionCfgBuilder.new name args ret).markCurrentAsEntry) with
  | error e => rfl
  | ok bu =>
    show builderFinish bu.finishCurrent true
      = Except.map pruneCfg (builderFinish bu.finishCurrent false)
    unfold builderFinish
    cases hr : resolveExits bu.finishCurrent.labelsToBlocks
        bu.finishCurrent.inputBlockOrder bu.finishCurrent.cfg.vertices
        [] [] with
    | error e => rfl
    | ok res => rfl

/-- C4 counterexample:  The claim says every non-entry block surviving
`prune = true` is reachable from the entry.  On `@f \x7b ret; .a: jmp .b;
.b: ret; \x7d` the pruned CFG keeps block 2 (its pre-prune predecessor list
held the dropped block 1), yet block 2 is not reachable from the entry:
pruning drops empty-predecessor blocks in a single pass, not
transitively. -/
theorem c4_prune_not_transitive_counterexample :
    buildCfg "f" [] none c4codes true = .ok c4prunedCfg
    ∧ 2 ∈ c4prunedCfg.vertices.map Prod.fst
    ∧ 2 ≠ c4prunedCfg.entry
    ∧ ¬ Reachable c4prunedCfg 2 := by
  refine ⟨rfl, by decide, by decide, ?_⟩
  intro h
  have key : ∀ x, Reachable c4prunedCfg x → x = 0 := by
    intro x hx
    induction hx with
    | entry => rfl
    | step ha hb ih =>
      rw [ih] at hb
      have hsucc : c4prunedCfg.successors 0 = [] := rfl
      rw [hsucc] at hb
      exact absurd hb (List.not_mem_nil _)
  exact absurd (key 2 h) (by decide)

/-- C4 (amended):  With `prune = true`, `build_cfg` returns exactly the
single-pass prune of the unpruned CFG: the entry plus every block whose
pre-prune predecessor list was non-empty.  Survivors need not be reachable
from the entry, because the pass is not iterated. -/
theorem c4_prune_single_pass_amended (name : String)
    (args : List (String × Ty)) (ret : Option Ty) (codes : List Code)
    (cfg : FunctionCfg) (h : buildCfg name args ret codes true = .ok cfg) :
    ∃ cfg₀, buildCfg name args ret codes false = .ok cfg₀
      ∧ cfg = pruneCfg cfg₀
      ∧ ∀ k ∈ cfg.vertices.map Prod.fst,
          k = cfg.entry ∨ cfg₀.predecessors k ≠ [] := by
  rw [buildCfg_prune_eq] at h
  cases hf : buildCfg name args ret codes false with
  | error e => rw [hf] at h; simp [Except.map] at h
  | ok cfg₀ =>
    rw [hf] at h
    simp only [Except.map, Except.ok.injEq] at h
    refine ⟨cfg₀, rfl, h.symm, ?_⟩
    intro k hk
    rw [← h] at hk
    simp only [pruneCfg, List.mem_map] at hk
    obtain ⟨p, hp, hpk⟩ := hk
    have hmem := List.mem_filter.mp hp
    have hkeep := hmem.2
    rw [hpk] at hkeep
    rw [Bool.or_eq_true] at hkeep
    rcases hkeep with hentry | hrev
    · left
      rw [← h]
      have : (pruneCfg cfg₀).entry = cfg₀.entry := rfl
      rw [this]
      exact beq_iff_eq.mp hentry
    · right
      rw [Bool.not_eq_eq_eq_not, Bool.not_true] at hrev
      intro hnil
      rw [FunctionCfg.predecessors] at hnil
      rw [hnil] at hrev
      simp at hrev

/-- Witness: the amended C4 statement applied to `c4codes`. -/
theorem c4_prune_single_pass_amended_witness :
    ∃ cfg₀, buildCfg "f" [] none c4codes false = .ok cfg₀
      ∧ c4prunedCfg = pruneCfg cfg₀
      ∧ ∀ k ∈ c4prunedCfg.vertices.map Prod.fst,
          k = c4prunedCfg.entry ∨ cfg₀.predecessors k ≠ [] :=
  c4_prune_single_pass_amended "f" [] none c4codes c4prunedCfg rfl

/-! ## C3: predecessor-index exactness of the builder -/

theorem revList_pushRev (rev : List (Nat × List Nat)) (t p t' q : Nat) :
    (revList (pushRev rev t p) t').count q
      = (revList rev t').count q + (if t' = t ∧ q = p then 1 else 0) := by
  unfold pushRev
  cases h : alistGet? rev t with
  | some l =>
    unfold revList
    rw [alistGet?_insert]
    by_cases ht : t' = t
    · subst ht
      rw [if_pos rfl, h]
      simp [List.count_append, List.count_cons]
      by_cases hqp : q = p
      · simp [hqp]
      · rw [if_neg hqp, if_neg (fun hc => hqp hc.symm)]
    · rw [if_neg ht]
      simp [ht]
  | none =>
    unfold revList
    rw [alistGet?_insert]
    by_cases ht : t' = t
    · subst ht
      rw [if_pos rfl, h]
      simp [List.count_cons]
      by_cases hqp : q = p
      · simp [hqp]
      · rw [if_neg hqp, if_neg (fun hc => hqp hc.symm)]
    · rw [if_neg ht]
      simp [ht]

theorem edgesCount_cons (p : Nat) (e : Exit) (l : List (Nat × Exit))
    (t q : Nat) :
    edgesCount ((p, e) :: l) t q
      = (if p = q then (exitSuccs e).count t else 0) + edgesCount l t q := by
  by_cases h : p = q <;> simp [edgesCount, List.filter_cons, h]

theorem edgesCount_append (l₁ l₂ : List (Nat × Exit)) (t q : Nat) :
    edgesCount (l₁ ++ l₂) t q = edgesCount l₁ t q + edgesCount l₂ t q := by
  simp [edgesCount, List.filter_append]

theorem edgesCount_of_not_mem :
    ∀ (l : List (Nat × Exit)) (t q : Nat), q ∉ l.map Prod.fst →
      edgesCount l t q = 0
  | [], _, _, _ => rfl
  | (p, e) :: l, t, q, h => by
    simp only [List.map_cons, List.mem_cons, not_or] at h
    rw [edgesCount_cons, if_neg (fun hc => h.1 hc.symm),
      edgesCount_of_not_mem l t q h.2]

theorem edgesCount_lookup :
    ∀ (l : List (Nat × Exit)), (l.map Prod.fst).Nodup → ∀ t q : Nat,
      edgesCount l t q
        = match alistGet? l q with
          | some e => (exitSuccs e).count t
          | none => 0
  | [], _, _, _ => rfl
  | (p, e) :: l, h, t, q => by
    simp only [List.map_cons, List.nodup_cons] at h
    rw [edgesCount_cons]
    by_cases hpq : p = q
    · subst hpq
      rw [if_pos rfl]
      have hl : alistGet? ((p, e) :: l) p = some e := by
        unfold alistGet?
        rw [List.find?_cons_of_pos _ (by simp)]
        rfl
      rw [hl, edgesCount_of_not_mem l t p h.1]
      rfl
    · rw [if_neg hpq]
      have hl : alistGet? ((p, e) :: l) q = alistGet? l q := by
        unfold alistGet?
        rw [List.find?_cons_of_neg _ (by simp [hpq])]
      rw [hl, edgesCount_lookup l h.2 t q, Nat.zero_add]

theorem edgesCount_pos :
    ∀ (l : List (Nat × Exit)) (t q : Nat), 0 < edgesCount l t q →
      ∃ pe ∈ l, pe.1 = q ∧ t ∈ exitSuccs pe.2
  | [], t, q, h => by simp [edgesCount] at h
  | (p, e) :: l, t, q, h => by
    rw [edgesCount_cons] at h
    by_cases hpq : p = q
    · rw [if_pos hpq] at h
      by_cases hc : 0 < (exitSuccs e).count t
      · exact ⟨(p, e), List.mem_cons_self _ _, hpq,
          List.count_pos_iff.mp hc⟩
      · have hrest : 0 < edgesCount l t q := by omega
        obtain ⟨pe, hm, hk, ht⟩ := edgesCount_pos l t q hrest
        exact ⟨pe, List.mem_cons_of_mem _ hm, hk, ht⟩
    · rw [if_neg hpq, Nat.zero_add] at h
      obtain ⟨pe, hm, hk, ht⟩ := edgesCount_pos l t q h
      exact ⟨pe, List.mem_cons_of_mem _ hm, hk, ht⟩

theorem revSound_of_check {cfg : FunctionCfg}
    (h : revSoundCheck cfg = true) : RevSound cfg := by
  intro p b hb
  unfold FunctionCfg.successors at hb
  cases he : cfg.getEdge p with
  | none => rw [he] at hb; exact absurd hb (List.not_mem_nil b)
  | some e =>
    rw [he] at hb
    have hb' : b ∈ exitSuccs e := hb
    have hmem : (p, e) ∈ cfg.edges := mem_of_alistGet?_eq_some he
    unfold revSoundCheck at h
    rw [List.all_eq_true] at h
    have h2 := h (p, e) hmem
    rw [List.all_eq_true] at h2
    have h3 := h2 b hb'
    simpa using h3

theorem alistInsert_values {κ α : Type} [DecidableEq κ]
    (l : List (κ × α)) (k : κ) (v : α) :
    ∀ x ∈ (alistInsert l k v).map Prod.snd, x ∈ l.map Prod.snd ∨ x = v := by
  intro x hx
  unfold alistInsert at hx
  by_cases h : l.any (fun p => decide (p.1 = k)) = true
  · rw [if_pos h] at hx
    simp only [List.map_map, List.mem_map, Function.comp] at hx
    obtain ⟨p, hp, hpx⟩ := hx
    by_cases hpk : p.1 = k
    · right
      rw [← hpx, if_pos hpk]
    · left
      rw [← hpx, if_neg hpk]
      exact List.mem_map.mpr ⟨p, hp, rfl⟩
  · rw [if_neg h] at hx
    rw [List.map_append] at hx
    rcases List.mem_append.mp hx with h1 | h2
    · left; exact h1
    · right; simpa using h2

theorem pushContrib (t q blockIdx target : Nat) :
    (if t = target ∧ q = blockIdx then 1 else 0)
      = (if blockIdx = q then List.count t [target] else 0) := by
  by_cases h1 : q = blockIdx
  · subst h1
    rw [if_pos rfl]
    by_cases h2 : t = target <;>
      simp [h2, List.count_cons, List.count_nil]
  · rw [if_neg (fun hc => h1 hc.2), if_neg (fun hc => h1 hc.symm)]

theorem pushContrib2 (t q bi tIdx fIdx : Nat) :
    (if t = tIdx ∧ q = bi then 1 else 0)
        + (if t = fIdx ∧ q = bi then 1 else 0)
      = if bi = q then List.count t [tIdx, fIdx] else 0 := by
  by_cases h1 : q = bi
  · subst h1
    rw [if_pos rfl]
    by_cases h2 : t = tIdx
    · by_cases h3 : t = fIdx
      · have h4 : tIdx = fIdx := h2.symm.trans h3
        simp [h2, h3, h4, List.count_cons, List.count_nil]
      · have h4 : ¬tIdx = fIdx := fun hc => h3 (h2.trans hc)
        simp [h2, h3, h4, Ne.symm h4, List.count_cons,
          List.count_nil]
    · by_cases h3 : t = fIdx
      · have h4 : ¬fIdx = tIdx := fun hc => h2 (h3.trans hc)
        simp [h2, h3, h4, Ne.symm h4, List.count_cons,
          List.count_nil]
      · simp [h2, h3, List.count_cons, List.count_nil]
  · rw [if_neg (fun hc => h1 hc.2), if_neg (fun hc => h1 hc.2),
      if_neg (fun hc => h1 hc.symm)]

theorem resolveExits_spec (ltb : List (String × Nat))
    (ibo : List (Nat × Nat)) :
    ∀ (blocks : List (Nat × BasicBlock)) (edges : List (Nat × Exit))
      (rev : List (Nat × List Nat))
      (out : List (Nat × Exit) × List (Nat × List Nat)),
      resolveExits ltb ibo blocks edges rev = .ok out →
      ∃ newEdges,
        out.1 = edges ++ newEdges
        ∧ newEdges.map Prod.fst = blocks.map Prod.fst
        ∧ (∀ pe ∈ newEdges, ∀ x ∈ exitSuccs pe.2,
            x ∈ ibo.map Prod.snd ∨ x ∈ ltb.map Prod.snd)
        ∧ ∀ t q : Nat, (revList out.2 t).count q
            = (revList rev t).count q + edgesCount newEdges t q
  | [], edges, rev, out, h => by
    simp only [resolveExits] at h
    cases h
    exact ⟨[], by simp, rfl, by simp,
      fun t q => by simp [edgesCount]⟩
  | (blockIdx, block) :: rest, edges, rev, out, h => by
    cases hbe : block.exit with
    | fallthrough =>
      simp only [resolveExits, hbe] at h
      cases hibo : alistGet? ibo blockIdx with
      | some afterIdx =>
        simp only [hibo] at h
        obtain ⟨ne, h1, h2, h3, h4⟩ := resolveExits_spec ltb ibo rest _ _ out h
        refine ⟨(blockIdx, .fallthrough (some afterIdx)) :: ne, ?_, ?_, ?_, ?_⟩
        · rw [h1, List.append_assoc]
          rfl
        · simp [h2]
        · intro pe hpe x hx
          rcases List.mem_cons.mp hpe with rfl | hpe'
          · rw [show x = afterIdx from by simpa [exitSuccs] using hx]
            exact Or.inl (List.mem_map.mpr
              ⟨(blockIdx, afterIdx), mem_of_alistGet?_eq_some hibo, rfl⟩)
          · exact h3 pe hpe' x hx
        · intro t q
          rw [h4 t q, revList_pushRev, edgesCount_cons,
            pushContrib t q blockIdx afterIdx]
          have hz : exitSuccs (Exit.fallthrough (some afterIdx))
              = [afterIdx] := rfl
          rw [hz]
          omega
      | none =>
        simp only [hibo] at h
        obtain ⟨ne, h1, h2, h3, h4⟩ := resolveExits_spec ltb ibo rest _ _ out h
        refine ⟨(blockIdx, .fallthrough none) :: ne, ?_, ?_, ?_, ?_⟩
        · rw [h1, List.append_assoc]
          rfl
        · simp [h2]
        · intro pe hpe x hx
          rcases List.mem_cons.mp hpe with rfl | hpe'
          · simp [exitSuccs] at hx
          · exact h3 pe hpe' x hx
        · intro t q
          rw [h4 t q, edgesCount_cons]
          have hz : List.count t (exitSuccs (Exit.fallthrough none)) = 0 := rfl
          rw [hz]
          simp
    | unconditional label =>
      simp only [resolveExits, hbe] at h
      cases hltb : alistGet? ltb label with
      | some destination =>
        simp only [hltb] at h
        obtain ⟨ne, h1, h2, h3, h4⟩ := resolveExits_spec ltb ibo rest _ _ out h
        refine ⟨(blockIdx, .unconditional destination) :: ne, ?_, ?_, ?_, ?_⟩
        · rw [h1, List.append_assoc]
          rfl
        · simp [h2]
        · intro pe hpe x hx
          rcases List.mem_cons.mp hpe with rfl | hpe'
          · rw [show x = destination from by simpa [exitSuccs] using hx]
            exact Or.inr (List.mem_map.mpr
              ⟨(label, destination), mem_of_alistGet?_eq_some hltb, rfl⟩)
          · exact h3 pe hpe' x hx
        · intro t q
          rw [h4 t q, revList_pushRev, edgesCount_cons,
            pushContrib t q blockIdx destination]
          have hz : exitSuccs (Exit.unconditional destination)
              = [destination] := rfl
          rw [hz]
          omega
      | none =>
        simp only [hltb] at h
        simp at h
    | conditional condition ifTrueLabel ifFalseLabel =>
      simp only [resolveExits, hbe] at h
      cases htl : alistGet? ltb ifTrueLabel with
      | none =>
        simp only [htl] at h
        simp at h
      | some ifTrueIdx =>
        simp only [htl] at h
        cases hfl : alistGet? ltb ifFalseLabel with
        | none =>
          simp only [hfl] at h
          simp at h
        | some ifFalseIdx =>
          simp only [hfl] at h
          obtain ⟨ne, h1, h2, h3, h4⟩ :=
            resolveExits_spec ltb ibo rest _ _ out h
          refine ⟨(blockIdx,
            .conditional condition ifTrueIdx ifFalseIdx) :: ne,
            ?_, ?_, ?_, ?_⟩
          · rw [h1, List.append_assoc]
            rfl
          · simp [h2]
          · intro pe hpe x hx
            rcases List.mem_cons.mp hpe with rfl | hpe'
            · have hxd : x = ifTrueIdx ∨ x = ifFalseIdx := by
                simpa [exitSuccs] using hx
              rcases hxd with hxe | hxe
              · rw [hxe]
                exact Or.inr (List.mem_map.mpr
                  ⟨(ifTrueLabel, ifTrueIdx),
                    mem_of_alistGet?_eq_some htl, rfl⟩)
              · rw [hxe]
                exact Or.inr (List.mem_map.mpr
                  ⟨(ifFalseLabel, ifFalseIdx),
                    mem_of_alistGet?_eq_some hfl, rfl⟩)
            · exact h3 pe hpe' x hx
          · intro t q
            rw [h4 t q, revList_pushRev, revList_pushRev, edgesCount_cons]
            have hc := pushContrib2 t q blockIdx ifTrueIdx ifFalseIdx
            have hz : exitSuccs
                (Exit.conditional condition ifTrueIdx ifFalseIdx)
              = [ifTrueIdx, ifFalseIdx] := rfl
            rw [hz]
            omega
    | ret value =>
      simp only [resolveExits, hbe] at h
      obtain ⟨ne, h1, h2, h3, h4⟩ := resolveExits_spec ltb ibo rest _ _ out h
      refine ⟨(blockIdx, .ret value) :: ne, ?_, ?_, ?_, ?_⟩
      · rw [h1, List.append_assoc]
        rfl
      · simp [h2]
      · intro pe hpe x hx
        rcases List.mem_cons.mp hpe with rfl | hpe'
        · simp [exitSuccs] at hx
        · exact h3 pe hpe' x hx
      · intro t q
        rw [h4 t q, edgesCount_cons]
        have hz : List.count t (exitSuccs (Exit.ret value)) = 0 := rfl
        rw [hz]
        simp

theorem finishCurrent_cfg_vertices (b : FunctionCfgBuilder) :
    b.finishCurrent.cfg.vertices
      = b.cfg.vertices ++ [(b.cfg.nextIdx, b.currentBlock)] := by
  unfold FunctionCfgBuilder.finishCurrent
  cases b.previousIdx <;> cases b.currentBlock.label <;>
    cases b.entryIsInit <;> rfl

theorem finishCurrent_cfg_nextIdx (b : FunctionCfgBuilder) :
    b.finishCurrent.cfg.nextIdx = b.cfg.nextIdx + 1 := by
  unfold FunctionCfgBuilder.finishCurrent
  cases b.previousIdx <;> cases b.currentBlock.label <;>
    cases b.entryIsInit <;> rfl

theorem finishCurrent_cfg_edges (b : FunctionCfgBuilder) :
    b.finishCurrent.cfg.edges = b.cfg.edges := by
  unfold FunctionCfgBuilder.finishCurrent
  cases b.previousIdx <;> cases b.currentBlock.label <;>
    cases b.entryIsInit <;> rfl

theorem finishCurrent_cfg_revEdges (b : FunctionCfgBuilder) :
    b.finishCurrent.cfg.revEdges = b.cfg.revEdges := by
  unfold FunctionCfgBuilder.finishCurrent
  cases b.previousIdx <;> cases b.currentBlock.label <;>
    cases b.entryIsInit <;> rfl

theorem finishCurrent_ltb (b : FunctionCfgBuilder) :
    b.finishCurrent.labelsToBlocks
      = match b.currentBlock.label with
        | some label => alistInsert b.labelsToBlocks label b.cfg.nextIdx
        | none => b.labelsToBlocks := by
  unfold FunctionCfgBuilder.finishCurrent
  cases b.previousIdx <;> cases b.currentBlock.label <;>
    cases b.entryIsInit <;> rfl

theorem finishCurrent_ibo (b : FunctionCfgBuilder) :
    b.finishCurrent.inputBlockOrder
      = match b.previousIdx with
        | some previousIdx =>
          alistInsert b.inputBlockOrder previousIdx b.cfg.nextIdx
        | none => b.inputBlockOrder := by
  unfold FunctionCfgBuilder.finishCurrent
  cases b.previousIdx <;> cases b.currentBlock.label <;>
    cases b.entryIsInit <;> rfl

theorem builderInv_finishCurrent {b : FunctionCfgBuilder}
    (h : BuilderInv b) : BuilderInv b.finishCurrent := by
  have hkeys : b.finishCurrent.cfg.vertices.map Prod.fst
      = b.cfg.vertices.map Prod.fst ++ [b.cfg.nextIdx] := by
    rw [finishCurrent_cfg_vertices]
    simp
  refine ⟨?_, ?_, ?_, ?_, ?_, ?_⟩
  · intro k hk
    rw [hkeys] at hk
    rw [finishCurrent_cfg_nextIdx]
    rcases List.mem_append.mp hk with h1 | h2
    · have := h.bound k h1
      omega
    · have : k = b.cfg.nextIdx := by simpa using h2
      omega
  · rw [hkeys]
    rw [List.pairwise_append]
    refine ⟨h.sorted, List.pairwise_singleton _ _, ?_⟩
    intro x hx y hy
    have : y = b.cfg.nextIdx := by simpa using hy
    rw [this]
    exact h.bound x hx
  · intro v hv
    rw [hkeys, finishCurrent_ltb] at *
    revert hv
    cases hcl : b.currentBlock.label with
    | some label =>
      intro hv
      rcases alistInsert_values b.labelsToBlocks label b.cfg.nextIdx v hv
        with h1 | h2
      · exact List.mem_append.mpr (Or.inl (h.ltbSub v h1))
      · rw [h2]
        exact List.mem_append.mpr (Or.inr (by simp))
    | none =>
      intro hv
      exact List.mem_append.mpr (Or.inl (h.ltbSub v hv))
  · intro v hv
    rw [hkeys, finishCurrent_ibo] at *
    revert hv
    cases hpi : b.previousIdx with
    | some previousIdx =>
      intro hv
      rcases alistInsert_values b.inputBlockOrder previousIdx b.cfg.nextIdx
        v hv with h1 | h2
      · exact List.mem_append.mpr (Or.inl (h.iboSub v h1))
      · rw [h2]
        exact List.mem_append.mpr (Or.inr (by simp))
    | none =>
      intro hv
      exact List.mem_append.mpr (Or.inl (h.iboSub v hv))
  · rw [finishCurrent_cfg_edges]
    exact h.edgesNil
  · rw [finishCurrent_cfg_revEdges]
    exact h.revNil

theorem builderInv_currentOnly {b : FunctionCfgBuilder}
    (h : BuilderInv b) (blk : BasicBlock) :
    BuilderInv { b with currentBlock := blk } :=
  ⟨h.bound, h.sorted, h.ltbSub, h.iboSub, h.edgesNil, h.revNil⟩

theorem builderInv_buildStep {b b' : FunctionCfgBuilder} {code : Code}
    (h : buildStep b code = .ok b') (hb : BuilderInv b) : BuilderInv b' := by
  cases code with
  | label name =>
    simp only [buildStep] at h
    cases h
    by_cases hc : (!b.currentBlock.instructions.isEmpty
        || b.currentBlock.label.isSome) = true
    · rw [if_pos hc]
      exact builderInv_currentOnly (builderInv_finishCurrent hb) _
    · rw [if_neg hc]
      exact builderInv_currentOnly hb _
  | instr instruction =>
    cases instruction with
    | const dest ty value =>
      simp only [buildStep] at h
      cases h
      exact builderInv_currentOnly hb _
    | value dest op args funcs labels ty =>
      simp only [buildStep] at h
      cases h
      exact builderInv_currentOnly hb _
    | effect op args funcs labels =>
      cases op with
      | jmp =>
        simp only [buildStep] at h
        cases labels with
        | nil => simp at h
        | cons l ls =>
          cases ls with
          | nil =>
            simp only at h
            cases h
            exact builderInv_finishCurrent
              (builderInv_currentOnly
                (builderInv_currentOnly hb _) _)
          | cons l2 ls2 => simp at h
      | br =>
        simp only [buildStep] at h
        cases args with
        | nil => simp at h
        | cons a as =>
          cases as with
          | nil =>
            cases labels with
            | nil => simp at h
            | cons l ls =>
              cases ls with
              | nil => simp at h
              | cons l2 ls2 =>
                cases ls2 with
                | nil =>
                  simp only at h
                  cases h
                  exact builderInv_finishCurrent
                    (builderInv_currentOnly
                      (builderInv_currentOnly hb _) _)
                | cons l3 ls3 => simp at h
          | cons a2 as2 => simp at h
      | ret =>
        simp only [buildStep] at h
        split at h
        · split at h
          · cases h
            exact builderInv_finishCurrent
              (builderInv_currentOnly
                (builderInv_currentOnly hb _) _)
          · simp at h
        · split at h
          · cases h
            exact builderInv_finishCurrent
              (builderInv_currentOnly
                (builderInv_currentOnly hb _) _)
          · simp at h
        · simp at h
      | print =>
        simp only [buildStep] at h
        cases h
        exact builderInv_currentOnly hb _
      | nop =>
        simp only [buildStep] at h
        cases h
        exact builderInv_currentOnly hb _
      | set =>
        simp only [buildStep] at h
        cases h
        exact builderInv_currentOnly hb _
      | store =>
        simp only [buildStep] at h
        cases h
        exact builderInv_currentOnly hb _
      | free =>
        simp only [buildStep] at h
        cases h
        exact builderInv_currentOnly hb _

theorem builderInv_foldlM :
    ∀ (codes : List Code) (b b' : FunctionCfgBuilder),
      codes.foldlM buildStep b = .ok b' → BuilderInv b → BuilderInv b'
  | [], b, b', h, hb => by
    simp only [List.foldlM] at h
    cases h
    exact hb
  | c :: cs, b, b', h, hb => by
    rw [List.foldlM_cons] at h
    cases hstep : buildStep b c with
    | error e =>
      rw [hstep] at h
      simp [bind, Except.bind] at h
    | ok b1 =>
      rw [hstep] at h
      have h' : cs.foldlM buildStep b1 = .ok b' := h
      exact builderInv_foldlM cs b1 b' h' (builderInv_buildStep hstep hb)

theorem builderInv_new (name : String) (args : List (String × Ty))
    (ret : Option Ty) :
    BuilderInv ((FunctionCfgBuilder.new name args ret).markCurrentAsEntry) :=
  ⟨fun k hk => by simp [FunctionCfgBuilder.new,
      FunctionCfgBuilder.markCurrentAsEntry] at hk,
    by simp [FunctionCfgBuilder.new, FunctionCfgBuilder.markCurrentAsEntry],
    fun v hv => by simp [FunctionCfgBuilder.new,
      FunctionCfgBuilder.markCurrentAsEntry] at hv,
    fun v hv => by simp [FunctionCfgBuilder.new,
      FunctionCfgBuilder.markCurrentAsEntry] at hv,
    rfl, rfl⟩

theorem buildCfg_false_spec (name : String) (args : List (String × Ty))
    (ret : Option Ty) (codes : List Code) (cfg : FunctionCfg)
    (h : buildCfg name args ret codes false = .ok cfg) :
    RevExact cfg
      ∧ ∀ t, cfg.predecessors t ≠ [] → t ∈ cfg.vertices.map Prod.fst := by
  simp only [buildCfg] at h
  cases hf : codes.foldlM buildStep
      ((FunctionCfgBuilder.new name args ret).markCurrentAsEntry) with
  | error e =>
    rw [hf] at h
    simp [bind, Except.bind] at h
  | ok bu =>
    rw [hf] at h
    have hinv : BuilderInv bu.finishCurrent :=
      builderInv_finishCurrent
        (builderInv_foldlM codes _ bu hf (builderInv_new name args ret))
    have h' : builderFinish bu.finishCurrent false = .ok cfg := h
    unfold builderFinish at h'
    cases hr : resolveExits bu.finishCurrent.labelsToBlocks
        bu.finishCurrent.inputBlockOrder bu.finishCurrent.cfg.vertices
        [] [] with
    | error e =>
      rw [hr] at h'
      simp [bind, Except.bind] at h'
    | ok res =>
      rw [hr] at h'
      have h'' : Except.ok ({ bu.finishCurrent.cfg with
          edges := res.1, revEdges := res.2 } : FunctionCfg)
          = Except.ok cfg := h'
      cases h''
      obtain ⟨ne, h1, h2, h3, h4⟩ := resolveExits_spec
        bu.finishCurrent.labelsToBlocks bu.finishCurrent.inputBlockOrder
        bu.finishCurrent.cfg.vertices [] [] res hr
      have h1' : res.1 = ne := by simpa using h1
      have hnodup : (ne.map Prod.fst).Nodup := by
        rw [h2]
        exact hinv.sorted.imp (fun hlt => Nat.ne_of_lt hlt)
      constructor
      · intro p t
        show (revList res.2 t).count p = _
        rw [h4 t p]
        have h0 : (revList ([] : List (Nat × List Nat)) t).count p = 0 := rfl
        rw [h0, Nat.zero_add, edgesCount_lookup ne hnodup t p]
        unfold FunctionCfg.successors FunctionCfg.getEdge
        have hedges : ({ bu.finishCurrent.cfg with
            edges := res.1, revEdges := res.2 } : FunctionCfg).edges
            = ne := h1'
        rw [hedges]
        cases hg : alistGet? ne p <;> rfl
      · intro t hne
        have hne' : revList res.2 t ≠ [] := hne
        obtain ⟨q, hq⟩ := List.exists_mem_of_ne_nil _ hne'
        have hc : 0 < (revList res.2 t).count q := List.count_pos_iff.mpr hq
        rw [h4 t q] at hc
        have h0 : (revList ([] : List (Nat × List Nat)) t).count q = 0 := rfl
        rw [h0, Nat.zero_add] at hc
        obtain ⟨pe, hpe, hpq, ht⟩ := edgesCount_pos ne t q hc
        rcases h3 pe hpe t ht with hibo | hltb
        · exact hinv.iboSub t hibo
        · exact hinv.ltbSub t hltb

theorem alistGet?_cons_eq {κ α : Type} [DecidableEq κ] (a : κ) (v : α)
    (l : List (κ × α)) : alistGet? ((a, v) :: l) a = some v := by
  unfold alistGet?
  rw [List.find?_cons_of_pos _ (by simp)]
  rfl

theorem alistGet?_cons_ne {κ α : Type} [DecidableEq κ] (a : κ) (v : α)
    (l : List (κ × α)) (k : κ) (h : ¬a = k) :
    alistGet? ((a, v) :: l) k = alistGet? l k := by
  unfold alistGet?
  rw [List.find?_cons_of_neg _ (by simp [h])]

theorem alistGet?_filter_pos {κ α : Type} [DecidableEq κ] (q : κ → Bool) :
    ∀ (l : List (κ × α)) (k : κ), q k = true →
      alistGet? (l.filter (fun pe => q pe.1)) k = alistGet? l k
  | [], k, _ => rfl
  | (a, v) :: l, k, hq => by
    rw [List.filter_cons]
    by_cases hak : a = k
    · subst hak
      rw [if_pos (show q (a, v).1 = true from hq)]
      rw [alistGet?_cons_eq, alistGet?_cons_eq]
    · cases hqa : q a with
      | true =>
        rw [if_pos rfl]
        rw [alistGet?_cons_ne _ _ _ _ hak, alistGet?_cons_ne _ _ _ _ hak]
        exact alistGet?_filter_pos q l k hq
      | false =>
        rw [if_neg (by simp)]
        rw [alistGet?_cons_ne _ _ _ _ hak]
        exact alistGet?_filter_pos q l k hq

theorem alistGet?_filter_neg {κ α : Type} [DecidableEq κ] (q : κ → Bool) :
    ∀ (l : List (κ × α)) (k : κ), q k = false →
      alistGet? (l.filter (fun pe => q pe.1)) k = none
  | [], _, _ => rfl
  | (a, v) :: l, k, hq => by
    rw [List.filter_cons]
    cases hqa : q a with
    | true =>
      have hak : ¬a = k := fun hc => by
        rw [hc, hq] at hqa
        cases hqa
      rw [if_pos rfl, alistGet?_cons_ne _ _ _ _ hak]
      exact alistGet?_filter_neg q l k hq
    | false =>
      rw [if_neg (by simp)]
      exact alistGet?_filter_neg q l k hq

theorem alistGet?_map_snd {κ α β : Type} [DecidableEq κ] (g : α → β) :
    ∀ (l : List (κ × α)) (k : κ),
      alistGet? (l.map (fun pe => (pe.1, g pe.2))) k
        = (alistGet? l k).map g
  | [], _ => rfl
  | (a, v) :: l, k => by
    simp only [List.map_cons]
    by_cases hak : a = k
    · subst hak
      rw [alistGet?_cons_eq, alistGet?_cons_eq]
      rfl
    · rw [alistGet?_cons_ne _ _ _ _ hak, alistGet?_cons_ne _ _ _ _ hak]
      exact alistGet?_map_snd g l k

theorem count_filter_true {α : Type} [DecidableEq α] (p : α → Bool)
    (a : α) (hp : p a = true) :
    ∀ l : List α, (l.filter p).count a = l.count a
  | [] => rfl
  | b :: l => by
    rw [List.filter_cons]
    cases hb : p b with
    | true =>
      rw [if_pos rfl, List.count_cons, List.count_cons,
        count_filter_true p a hp l]
    | false =>
      rw [if_neg (by simp), count_filter_true p a hp l,
        List.count_cons]
      have hab : ¬a = b := fun hc => by
        rw [hc, hb] at hp
        cases hp
      have hba : ¬b = a := fun hc => hab hc.symm
      simp [hab, hba]

theorem count_filter_false {α : Type} [DecidableEq α] (p : α → Bool)
    (a : α) (hp : p a = false) :
    ∀ l : List α, (l.filter p).count a = 0
  | [] => rfl
  | b :: l => by
    rw [List.filter_cons]
    cases hb : p b with
    | true =>
      rw [if_pos rfl, List.count_cons, count_filter_false p a hp l]
      have hab : ¬a = b := fun hc => by
        rw [hc, hb] at hp
        cases hp
      have hba : ¬b = a := fun hc => hab hc.symm
      simp [hab, hba]
    | false =>
      rw [if_neg (by simp)]
      exact count_filter_false p a hp l

theorem pruneCfg_succ_pos {cfg : FunctionCfg} {p : Nat}
    (hp : (pruneKeys cfg).contains p = true) :
    (pruneCfg cfg).successors p = cfg.successors p := by
  unfold FunctionCfg.successors FunctionCfg.getEdge
  rw [show (pruneCfg cfg).edges
      = cfg.edges.filter (fun pe => (pruneKeys cfg).contains pe.1) from rfl]
  rw [alistGet?_filter_pos _ _ _ hp]

theorem pruneCfg_succ_neg {cfg : FunctionCfg} {p : Nat}
    (hp : (pruneKeys cfg).contains p = false) :
    (pruneCfg cfg).successors p = [] := by
  unfold FunctionCfg.successors FunctionCfg.getEdge
  rw [show (pruneCfg cfg).edges
      = cfg.edges.filter (fun pe => (pruneKeys cfg).contains pe.1) from rfl]
  rw [alistGet?_filter_neg _ _ _ hp]

theorem pruneCfg_pred {cfg : FunctionCfg} (t : Nat) :
    (pruneCfg cfg).predecessors t
      = if (pruneKeys cfg).contains t
        then (cfg.predecessors t).filter
          (fun x => (pruneKeys cfg).contains x)
        else [] := by
  unfold FunctionCfg.predecessors
  rw [show (pruneCfg cfg).revEdges
      = (cfg.revEdges.filter
          (fun pe => (pruneKeys cfg).contains pe.1)).map
        (fun pe => (pe.1, pe.2.filter
          (fun x => (pruneKeys cfg).contains x))) from rfl]
  rw [alistGet?_map_snd
    (List.filter (fun x => (pruneKeys cfg).contains x))]
  cases hkt : (pruneKeys cfg).contains t with
  | true =>
    rw [alistGet?_filter_pos _ _ _ hkt, if_pos rfl]
    cases hg : alistGet? cfg.revEdges t with
    | none => simp [hg]
    | some lst => simp [hg]
  | false =>
    rw [alistGet?_filter_neg _ _ _ hkt]
    simp

theorem pruneCfg_revExact {cfg : FunctionCfg} (hex : RevExact cfg)
    (hvert : ∀ t, cfg.predecessors t ≠ [] →
      t ∈ cfg.vertices.map Prod.fst) :
    RevExact (pruneCfg cfg) := by
  intro p t
  rw [pruneCfg_pred t]
  cases hkt : (pruneKeys cfg).contains t with
  | true =>
    rw [if_pos rfl]
    cases hkp : (pruneKeys cfg).contains p with
    | true =>
      rw [count_filter_true _ _ hkp, hex p t, pruneCfg_succ_pos hkp]
    | false =>
      rw [count_filter_false _ _ hkp, pruneCfg_succ_neg hkp]
      rfl
  | false =>
    rw [if_neg (by simp)]
    cases hkp : (pruneKeys cfg).contains p with
    | true =>
      rw [pruneCfg_succ_pos hkp]
      show 0 = _
      rw [← hex p t]
      by_contra hne
      have hpos : 0 < (cfg.predecessors t).count p :=
        Nat.pos_of_ne_zero (fun hc => hne hc.symm)
      have hmem : p ∈ cfg.predecessors t := List.count_pos_iff.mp hpos
      have hnil : cfg.predecessors t ≠ [] := fun hc => by
        rw [hc] at hmem
        exact List.not_mem_nil _ hmem
      obtain ⟨pair, hpm, hpf⟩ := List.mem_map.mp (hvert t hnil)
      have hkeep : pruneKeep cfg t = true := by
        unfold pruneKeep
        rw [Bool.or_eq_true]
        right
        unfold FunctionCfg.predecessors at hnil
        cases hli : ((alistGet? cfg.revEdges t).getD []).isEmpty with
        | true => exact absurd (List.isEmpty_iff.mp hli) hnil
        | false => rfl
      have hkmem : t ∈ pruneKeys cfg := by
        unfold pruneKeys
        exact List.mem_map.mpr
          ⟨pair, List.mem_filter.mpr ⟨hpm, by rw [hpf]; exact hkeep⟩, hpf⟩
      rw [show (pruneKeys cfg).contains t = true from by
        simpa using hkmem] at hkt
      cases hkt
    | false =>
      rw [pruneCfg_succ_neg hkp]
      rfl

theorem revList_extend (rev : List (Nat × List Nat)) (e x : Nat) :
    revList (if (alistGet? rev e).isSome then rev else rev ++ [(e, [])]) x
      = revList rev x := by
  by_cases h : (alistGet? rev e).isSome
  · rw [if_pos h]
  · rw [if_neg h]
    unfold revList
    cases hx : alistGet? rev x with
    | some l => rw [alistGet?_append_left rev _ x l hx]
    | none =>
      rw [alistGet?_append_right rev _ x hx]
      by_cases hxe : x = e
      · subst hxe
        rw [alistGet?_cons_eq]
        rfl
      · rw [alistGet?_cons_ne _ _ _ _ (fun hc => hxe hc.symm)]
        rfl

theorem revList_alistInsert (rev : List (Nat × List Nat)) (e : Nat)
    (l : List Nat) (x : Nat) :
    revList (alistInsert rev e l) x
      = if x = e then l else revList rev x := by
  unfold revList
  rw [alistGet?_insert]
  by_cases hxe : x = e
  · rw [if_pos hxe, if_pos hxe]
    rfl
  · rw [if_neg hxe, if_neg hxe]

theorem revList_condInsert_reorient (rev : List (Nat × List Nat))
    (e s x : Nat) :
    revList (if s ∈ (alistGet? rev e).getD []
        then alistInsert rev e ((alistGet? rev e).getD [])
        else alistInsert rev e (((alistGet? rev e).getD []) ++ [s])) x
      = if x = e
        then (if s ∈ revList rev e then revList rev e
          else revList rev e ++ [s])
        else revList rev x := by
  have hcur : (alistGet? rev e).getD [] = revList rev e := rfl
  by_cases hin : s ∈ (alistGet? rev e).getD []
  · rw [if_pos hin, revList_alistInsert, hcur]
    by_cases hxe : x = e
    · rw [if_pos hxe, if_pos hxe, if_pos (hcur ▸ hin)]
    · rw [if_neg hxe, if_neg hxe]
  · rw [if_neg hin, revList_alistInsert, hcur]
    by_cases hxe : x = e
    · rw [if_pos hxe, if_pos hxe, if_neg (hcur ▸ hin)]
    · rw [if_neg hxe, if_neg hxe]

theorem revList_condInsert_setUncond (rev : List (Nat × List Nat))
    (e s x : Nat) :
    revList (if s ∈ (alistGet? rev e).getD [] then rev
        else alistInsert rev e (((alistGet? rev e).getD []) ++ [s])) x
      = if x = e
        then (if s ∈ revList rev e then revList rev e
          else revList rev e ++ [s])
        else revList rev x := by
  have hcur : (alistGet? rev e).getD [] = revList rev e := rfl
  by_cases hin : s ∈ (alistGet? rev e).getD []
  · rw [if_pos hin]
    by_cases hxe : x = e
    · rw [if_pos hxe, if_pos (hcur ▸ hin), hxe]
    · rw [if_neg hxe]
  · rw [if_neg hin, revList_alistInsert, hcur]
    by_cases hxe : x = e
    · rw [if_pos hxe, if_pos hxe, if_neg (hcur ▸ hin)]
    · rw [if_neg hxe, if_neg hxe]

theorem condInsert_mem {rev r2 : List (Nat × List Nat)} {e s : Nat}
    (hchar : ∀ x, revList r2 x
      = if x = e
        then (if s ∈ revList rev e then revList rev e
          else revList rev e ++ [s])
        else revList rev x) :
    s ∈ revList r2 e := by
  rw [hchar e, if_pos rfl]
  by_cases hin : s ∈ revList rev e
  · rw [if_pos hin]
    exact hin
  · rw [if_neg hin]
    exact List.mem_append.mpr (Or.inr (by simp))

theorem condInsert_subset {rev r2 : List (Nat × List Nat)} {e s : Nat}
    (hchar : ∀ x, revList r2 x
      = if x = e
        then (if s ∈ revList rev e then revList rev e
          else revList rev e ++ [s])
        else revList rev x)
    (x : Nat) : revList rev x ⊆ revList r2 x := by
  rw [hchar x]
  by_cases hxe : x = e
  · rw [if_pos hxe, hxe]
    by_cases hin : s ∈ revList rev e
    · rw [if_pos hin]
      exact fun z hz => hz
    · rw [if_neg hin]
      exact fun z hz => List.mem_append.mpr (Or.inl hz)
  · rw [if_neg hxe]
    exact fun z hz => hz

theorem successors_insertEdge_self (cfg : FunctionCfg)
    (vtx : List (Nat × BasicBlock)) (rev2 : List (Nat × List Nat))
    (s : Nat) (x : Exit) :
    ({ cfg with
        vertices := vtx
        edges := alistInsert cfg.edges s x
        revEdges := rev2 } : FunctionCfg).successors s = exitSuccs x := by
  unfold FunctionCfg.successors FunctionCfg.getEdge
  rw [show ({ cfg with
      vertices := vtx
      edges := alistInsert cfg.edges s x
      revEdges := rev2 } : FunctionCfg).edges
    = alistInsert cfg.edges s x from rfl]
  rw [alistGet?_insert, if_pos rfl]

theorem successors_insertEdge_other (cfg : FunctionCfg)
    (vtx : List (Nat × BasicBlock)) (rev2 : List (Nat × List Nat))
    (s : Nat) (x : Exit) (p : Nat) (hps : ¬p = s) :
    ({ cfg with
        vertices := vtx
        edges := alistInsert cfg.edges s x
        revEdges := rev2 } : FunctionCfg).successors p
      = cfg.successors p := by
  unfold FunctionCfg.successors FunctionCfg.getEdge
  rw [show ({ cfg with
      vertices := vtx
      edges := alistInsert cfg.edges s x
      revEdges := rev2 } : FunctionCfg).edges
    = alistInsert cfg.edges s x from rfl]
  rw [alistGet?_insert, if_neg hps]

theorem setUncond_core (cfg : FunctionCfg) (s e : Nat)
    (vtx : List (Nat × BasicBlock)) (rev1 : List (Nat × List Nat))
    (hrev1 : ∀ x, revList rev1 x = revList cfg.revEdges x)
    (hs : RevSound cfg) :
    RevSound { cfg with
      vertices := vtx
      edges := alistInsert cfg.edges s (.unconditional e)
      revEdges := if s ∈ (alistGet? rev1 e).getD [] then rev1
        else alistInsert rev1 e (((alistGet? rev1 e).getD []) ++ [s]) } := by
  intro p b hb
  have hchar := revList_condInsert_setUncond rev1 e s
  by_cases hps : p = s
  · subst hps
    rw [successors_insertEdge_self] at hb
    have hbe : b = e := by simpa [exitSuccs] using hb
    subst hbe
    exact condInsert_mem hchar
  · rw [successors_insertEdge_other cfg vtx _ s _ p hps] at hb
    have hp : p ∈ cfg.predecessors b := hs p b hb
    have hp1 : p ∈ revList rev1 b := by
      rw [hrev1 b]
      exact hp
    exact condInsert_subset hchar b hp1

theorem reorient_core_uncond (cfg : FunctionCfg) (s oe e : Nat)
    (vtx : List (Nat × BasicBlock)) (rev1 : List (Nat × List Nat))
    (oldRev : List Nat)
    (holdrev : alistGet? cfg.revEdges oe = some oldRev)
    (hrev1 : ∀ x, revList rev1 x
      = if x = oe then oldRev.filter (fun z => decide (z ≠ s))
        else revList cfg.revEdges x)
    (hs : RevSound cfg) :
    RevSound { cfg with
      vertices := vtx
      edges := alistInsert cfg.edges s (.unconditional e)
      revEdges := if s ∈ (alistGet? rev1 e).getD []
        then alistInsert rev1 e ((alistGet? rev1 e).getD [])
        else alistInsert rev1 e (((alistGet? rev1 e).getD []) ++ [s]) } := by
  intro p b hb
  have hchar := revList_condInsert_reorient rev1 e s
  by_cases hps : p = s
  · subst hps
    rw [successors_insertEdge_self] at hb
    have hbe : b = e := by simpa [exitSuccs] using hb
    subst hbe
    exact condInsert_mem hchar
  · rw [successors_insertEdge_other cfg vtx _ s _ p hps] at hb
    have hp : p ∈ cfg.predecessors b := hs p b hb
    have hp1 : p ∈ revList rev1 b := by
      rw [hrev1 b]
      by_cases hboe : b = oe
      · rw [if_pos hboe]
        rw [List.mem_filter]
        refine ⟨?_, by simp [hps]⟩
        have hpo : cfg.predecessors oe = oldRev := by
          unfold FunctionCfg.predecessors
          rw [holdrev]
          rfl
        rw [hboe, hpo] at hp
        exact hp
      · rw [if_neg hboe]
        exact hp
    exact condInsert_subset hchar b hp1

theorem reorient_core_cond (cfg : FunctionCfg) (s oe e : Nat)
    (vtx : List (Nat × BasicBlock)) (rev1 : List (Nat × List Nat))
    (oldRev : List Nat) (c : String) (t f t' f' : Nat)
    (holdrev : alistGet? cfg.revEdges oe = some oldRev)
    (hrev1 : ∀ x, revList rev1 x
      = if x = oe then oldRev.filter (fun z => decide (z ≠ s))
        else revList cfg.revEdges x)
    (hedge : cfg.getEdge s = some (.conditional c t f))
    (hdist : t ≠ f)
    (harm : (t' = e ∧ f' = f ∧ oe = t) ∨ (t' = t ∧ f' = e ∧ ¬oe = t))
    (hs : RevSound cfg) :
    RevSound { cfg with
      vertices := vtx
      edges := alistInsert cfg.edges s (.conditional c t' f')
      revEdges := if s ∈ (alistGet? rev1 e).getD []
        then alistInsert rev1 e ((alistGet? rev1 e).getD [])
        else alistInsert rev1 e (((alistGet? rev1 e).getD []) ++ [s]) } := by
  intro p b hb
  have hchar := revList_condInsert_reorient rev1 e s
  have hsuccS : cfg.successors s = [t, f] := by
    unfold FunctionCfg.successors
    rw [hedge]
    rfl
  have haux : ∀ x, ¬x = oe → x ∈ cfg.successors s →
      s ∈ revList (if s ∈ (alistGet? rev1 e).getD []
        then alistInsert rev1 e ((alistGet? rev1 e).getD [])
        else alistInsert rev1 e (((alistGet? rev1 e).getD []) ++ [s])) x := by
    intro x hxoe hxsucc
    have hmem : s ∈ cfg.predecessors x := hs s x hxsucc
    have h1 : s ∈ revList rev1 x := by
      rw [hrev1 x, if_neg hxoe]
      exact hmem
    exact condInsert_subset hchar x h1
  by_cases hps : p = s
  · subst hps
    rw [successors_insertEdge_self] at hb
    have hbtf : b = t' ∨ b = f' := by simpa [exitSuccs] using hb
    rcases harm with ⟨he1, he2, he3⟩ | ⟨he1, he2, he3⟩
    · rcases hbtf with rfl | rfl
      · rw [he1]
        exact condInsert_mem hchar
      · rw [he2]
        by_cases hfe : f = e
        · rw [hfe]
          exact condInsert_mem hchar
        · have hfoe : ¬f = oe := by
            rw [he3]
            exact fun hc => hdist hc.symm
          exact haux f hfoe (by rw [hsuccS]; simp)
    · rcases hbtf with rfl | rfl
      · rw [he1]
        by_cases hte : t = e
        · rw [hte]
          exact condInsert_mem hchar
        · have htoe : ¬t = oe := fun hc => he3 hc.symm
          exact haux t htoe (by rw [hsuccS]; simp)
      · rw [he2]
        exact condInsert_mem hchar
  · rw [successors_insertEdge_other cfg vtx _ s _ p hps] at hb
    have hp : p ∈ cfg.predecessors b := hs p b hb
    have hp1 : p ∈ revList rev1 b := by
      rw [hrev1 b]
      by_cases hboe : b = oe
      · rw [if_pos hboe]
        rw [List.mem_filter]
        refine ⟨?_, by simp [hps]⟩
        have hpo : cfg.predecessors oe = oldRev := by
          unfold FunctionCfg.predecessors
          rw [holdrev]
          rfl
        rw [hboe, hpo] at hp
        exact hp
      · rw [if_neg hboe]
        exact hp
    exact condInsert_subset hchar b hp1

theorem setUnconditionalEdge_revSound {cfg cfg' : FunctionCfg} {s e : Nat}
    (h : cfg.setUnconditionalEdge s e = some cfg') (hs : RevSound cfg) :
    RevSound cfg' := by
  unfold FunctionCfg.setUnconditionalEdge at h
  cases hsv : cfg.getVertex s with
  | none => rw [hsv] at h; simp at h
  | some startData =>
    cases hev : cfg.getVertex e with
    | none => simp [hsv, hev] at h
    | some endData =>
      cases hel : endData.label with
      | none => simp [hsv, hev, hel] at h
      | some endLabel =>
        cases hse : startData.exit with
        | conditional c tl fl =>
          simp [hsv, hev, hel, hse] at h
        | ret a =>
          simp [hsv, hev, hel, hse] at h
        | fallthrough =>
          simp only [hsv, hev, hel, hse, Option.bind_eq_bind,
            Option.some_bind, Option.some.injEq] at h
          subst h
          exact setUncond_core cfg s e _ _
            (revList_extend cfg.revEdges e) hs
        | unconditional lbl =>
          cases hsl : setLast startData.instructions
              (.effect .jmp [] [] [endLabel]) with
          | none =>
            simp [hsv, hev, hel, hse, hsl] at h
          | some newInstrs =>
            simp only [hsv, hev, hel, hse, hsl, Option.bind_eq_bind,
              Option.some_bind, Option.some.injEq] at h
            subst h
            exact setUncond_core cfg s e _ _
              (revList_extend cfg.revEdges e) hs

theorem reorientEdge_revSound {cfg cfg' : FunctionCfg} {s oe e : Nat}
    (h : cfg.reorientEdge s oe e = some cfg')
    (hs : RevSound cfg)
    (hdist : ∀ c t f, cfg.getEdge s = some (.conditional c t f) → t ≠ f)
    (hexit : ∀ v, cfg.getVertex s = some v →
      (∃ l, v.exit = .unconditional l)
      ∨ (∃ c a b, v.exit = .conditional c a b)) :
    RevSound cfg' := by
  unfold FunctionCfg.reorientEdge at h
  cases hge : cfg.getEdge s with
  | none => rw [hge] at h; simp at h
  | some startEdge =>
    rw [hge] at h
    cases startEdge with
    | ret a =>
      have h' : some cfg = some cfg' := h
      cases h'
      exact hs
    | fallthrough d =>
      cases hev : alistGet? cfg.vertices e with
      | none => simp [FunctionCfg.getVertex, hev] at h
      | some endData =>
        cases hel : endData.label with
        | none => simp [FunctionCfg.getVertex, hev, hel] at h
        | some endLabel =>
          cases hor : alistGet? cfg.revEdges oe with
          | none => simp [FunctionCfg.getVertex, hev, hel, hor] at h
          | some oldRev =>
            cases hsv : alistGet? cfg.vertices s with
            | none =>
              simp [FunctionCfg.getVertex, hev, hel, hor, hsv] at h
            | some startData =>
              rcases hexit startData hsv with ⟨l, hl⟩ | ⟨cc, aa, bb, hl⟩
              · cases hsl : setLast startData.instructions
                    (.effect .jmp [] [] [endLabel]) with
                | none =>
                  simp [FunctionCfg.getVertex, hev, hel, hor, hsv, hl,
                    hsl] at h
                | some newInstrs =>
                  simp only [FunctionCfg.getVertex, hev, hel, hor, hsv,
                    hl, hsl, Option.bind_eq_bind, Option.some_bind,
                    Option.some.injEq] at h
                  subst h
                  exact reorient_core_uncond cfg s oe e _ _ oldRev hor
                    (revList_alistInsert cfg.revEdges oe _) hs
              · simp [FunctionCfg.getVertex, hev, hel, hor, hsv, hl] at h
    | unconditional d =>
      cases hev : alistGet? cfg.vertices e with
      | none => simp [FunctionCfg.getVertex, hev] at h
      | some endData =>
        cases hel : endData.label with
        | none => simp [FunctionCfg.getVertex, hev, hel] at h
        | some endLabel =>
          cases hor : alistGet? cfg.revEdges oe with
          | none => simp [FunctionCfg.getVertex, hev, hel, hor] at h
          | some oldRev =>
            cases hsv : alistGet? cfg.vertices s with
            | none =>
              simp [FunctionCfg.getVertex, hev, hel, hor, hsv] at h
            | some startData =>
              rcases hexit startData hsv with ⟨l, hl⟩ | ⟨cc, aa, bb, hl⟩
              · cases hsl : setLast startData.instructions
                    (.effect .jmp [] [] [endLabel]) with
                | none =>
                  simp [FunctionCfg.getVertex, hev, hel, hor, hsv, hl,
                    hsl] at h
                | some newInstrs =>
                  simp only [FunctionCfg.getVertex, hev, hel, hor, hsv,
                    hl, hsl, Option.bind_eq_bind, Option.some_bind,
                    Option.some.injEq] at h
                  subst h
                  exact reorient_core_uncond cfg s oe e _ _ oldRev hor
                    (revList_alistInsert cfg.revEdges oe _) hs
              · simp [FunctionCfg.getVertex, hev, hel, hor, hsv, hl] at h
    | conditional c t f =>
      have hdist' : t ≠ f := hdist c t f hge
      cases hev : alistGet? cfg.vertices e with
      | none => simp [FunctionCfg.getVertex, hev] at h
      | some endData =>
        cases hel : endData.label with
        | none => simp [FunctionCfg.getVertex, hev, hel] at h
        | some endLabel =>
          cases hor : alistGet? cfg.revEdges oe with
          | none => simp [FunctionCfg.getVertex, hev, hel, hor] at h
          | some oldRev =>
            cases hsv : alistGet? cfg.vertices s with
            | none =>
              simp [FunctionCfg.getVertex, hev, hel, hor, hsv] at h
            | some startData =>
              rcases hexit startData hsv with ⟨l, hl⟩ | ⟨cc, aa, bb, hl⟩
              · cases hsl : setLast startData.instructions
                    (.effect .jmp [] [] [endLabel]) with
                | none =>
                  simp [FunctionCfg.getVertex, hev, hel, hor, hsv, hl,
                    hsl] at h
                | some newInstrs =>
                  simp only [FunctionCfg.getVertex, hev, hel, hor, hsv,
                    hl, hsl, Option.bind_eq_bind, Option.some_bind,
                    Option.some.injEq] at h
                  subst h
                  exact reorient_core_uncond cfg s oe e _ _ oldRev hor
                    (revList_alistInsert cfg.revEdges oe _) hs
              · simp only [FunctionCfg.getVertex, hev, hel, hor, hsv,
                  hl, Option.bind_eq_bind, Option.some_bind] at h
                by_cases hoet : oe = t
                · simp only [if_pos hoet, Prod.fst, Prod.snd] at h
                  cases hsl : setLast startData.instructions
                      (.effect .br [c] [] [endLabel, bb]) with
                  | none => simp [hsl] at h
                  | some newInstrs =>
                    simp only [hsl, Option.some_bind,
                      Option.some.injEq] at h
                    subst h
                    exact reorient_core_cond cfg s oe e _ _ oldRev c t f
                      e f hor (revList_alistInsert cfg.revEdges oe _) hge
                      hdist' (Or.inl ⟨rfl, rfl, hoet⟩) hs
                · simp only [if_neg hoet, Prod.fst, Prod.snd] at h
                  cases hsl : setLast startData.instructions
                      (.effect .br [c] [] [aa, endLabel]) with
                  | none => simp [hsl] at h
                  | some newInstrs =>
                    simp only [hsl, Option.some_bind,
                      Option.some.injEq] at h
                    subst h
                    exact reorient_core_cond cfg s oe e _ _ oldRev c t f
                      t e hor (revList_alistInsert cfg.revEdges oe _) hge
                      hdist' (Or.inr ⟨rfl, rfl, hoet⟩) hs

/-- C3 counterexample:  The claim says the predecessor index is exact
with no duplicates and no stale entries.  Three refutations: the builder
gives `rev_edges[1] = [0, 0]` for `br c .L .L` (a duplicate);
`set_unconditional_edge` leaves the stale entry `0 ∈ rev_edges[1]` after the
edge `0 → 1` is replaced by `0 → 2`; `reorient_edge` on a conditional whose
arms share a target drops `0` from `rev_edges[1]` even though the edge
`0 → 1` survives in the other arm. -/
theorem c3_predecessor_index_counterexample :
    (∃ cfg, buildCfg "f" [] none c3codes false = .ok cfg
      ∧ cfg.successors 0 = [1, 1] ∧ cfg.predecessors 1 = [0, 0])
    ∧ (∃ cfg', stCfg.setUnconditionalEdge 0 2 = some cfg'
      ∧ 0 ∈ cfg'.predecessors 1 ∧ 1 ∉ cfg'.successors 0)
    ∧ (∃ cfg'', dupCfg.reorientEdge 0 1 2 = some cfg''
      ∧ 1 ∈ cfg''.successors 0 ∧ 0 ∉ cfg''.predecessors 1) := by
  exact ⟨⟨_, rfl, by decide, by decide⟩, ⟨_, rfl, by decide, by decide⟩,
    ⟨_, rfl, by decide, by decide⟩⟩

/-- C3 (amended):  The builder's predecessor index is multiset-exact:
for every `build_cfg` result (either prune mode) and all blocks `p`, `t`,
the number of occurrences of `p` in `rev_edges[t]` equals the number of
occurrences of `t` in `succ(p)` — so a both-arms-same-target branch stores a
duplicate.  The edge primitives preserve only the soundness direction
(`b ∈ succ(p) → p ∈ rev_edges[b]`): `set_unconditional_edge`
unconditionally (stale entries may remain), `reorient_edge` provided the
reoriented block's conditional edge has distinct targets and its labeled
exit is a branch (the function requires explicit, non-fallthrough
exits). -/
theorem c3_predecessor_index_amended :
    (∀ (name : String) (args : List (String × Ty)) (ret : Option Ty)
      (codes : List Code) (prune : Bool) (cfg : FunctionCfg),
      buildCfg name args ret codes prune = .ok cfg → RevExact cfg)
    ∧ (∀ (cfg cfg' : FunctionCfg) (s e : Nat),
      cfg.setUnconditionalEdge s e = some cfg' → RevSound cfg →
        RevSound cfg')
    ∧ (∀ (cfg cfg' : FunctionCfg) (s oe e : Nat),
      cfg.reorientEdge s oe e = some cfg' → RevSound cfg →
      (∀ c t f, cfg.getEdge s = some (.conditional c t f) → t ≠ f) →
      (∀ v, cfg.getVertex s = some v →
        (∃ l, v.exit = .unconditional l)
        ∨ (∃ c a b, v.exit = .conditional c a b)) →
      RevSound cfg') := by
  refine ⟨?_, ?_, ?_⟩
  · intro name args ret codes prune cfg h
    cases prune with
    | false => exact (buildCfg_false_spec name args ret codes cfg h).1
    | true =>
      rw [buildCfg_prune_eq] at h
      cases hf : buildCfg name args ret codes false with
      | error e => rw [hf] at h; simp [Except.map] at h
      | ok cfg₀ =>
        rw [hf] at h
        simp only [Except.map, Except.ok.injEq] at h
        obtain ⟨hex, hvert⟩ := buildCfg_false_spec name args ret codes cfg₀ hf
        rw [← h]
        exact pruneCfg_revExact hex hvert
  · intro cfg cfg' s e h hs
    exact setUnconditionalEdge_revSound h hs
  · intro cfg cfg' s oe e h hs hdist hexit
    exact reorientEdge_revSound h hs hdist hexit

/-- Witness: the amended C3 statement at concrete inputs — exactness at
`(p, t) = (0, 1)` of the `c3codes` build, and the soundness direction after
a `set_unconditional_edge` and a distinct-target `reorient_edge`. -/
theorem c3_predecessor_index_amended_witness :
    (∃ cfg, buildCfg "f" [] none c3codes false = .ok cfg
      ∧ (cfg.predecessors 1).count 0 = (cfg.successors 0).count 1)
    ∧ (∃ cfg', stCfg.setUnconditionalEdge 0 2 = some cfg'
      ∧ 0 ∈ cfg'.predecessors 2)
    ∧ (∃ cfg'', reorCfg.reorientEdge 0 1 3 = some cfg''
      ∧ 0 ∈ cfg''.predecessors 3) := by
  obtain ⟨h1, h2, h3⟩ := c3_predecessor_index_amended
  refine ⟨⟨_, rfl, h1 "f" [] none c3codes false _ rfl 0 1⟩, ?_, ?_⟩
  · refine ⟨_, rfl, ?_⟩
    have hsound := h2 stCfg _ 0 2 rfl (revSound_of_check (by decide))
    exact hsound 0 2 (by decide)
  · refine ⟨_, rfl, ?_⟩
    have hsound := h3 reorCfg _ 0 1 3 rfl
      (revSound_of_check (by decide))
      (fun c t f hh => by
        have heq : (Exit.conditional "c" 1 2) = Exit.conditional c t f := by
          have h0 : reorCfg.getEdge 0 = some (.conditional "c" 1 2) := rfl
          exact Option.some.inj (h0.symm.trans hh)
        cases heq
        decide)
      (fun v hv => by
        have heq : (⟨true, none, [Instr.effect .br ["c"] [] ["A", "B"]],
            .conditional "c" "A" "B"⟩ : BasicBlock) = v :=
          Option.some.inj ((rfl : reorCfg.getVertex 0
            = some ⟨true, none, [Instr.effect .br ["c"] [] ["A", "B"]],
              .conditional "c" "A" "B"⟩).symm.trans hv)
        rw [← heq]
        exact Or.inr ⟨"c", "A", "B", rfl⟩)
    exact hsound 0 3 (by decide)

/-! ## C6: soundness of the reaching-definitions solution -/

theorem mem_listUnion {T : Type} [DecidableEq T] {a b : List T} {x : T}
    (h : x ∈ listUnion a b) : x ∈ a ∨ x ∈ b := by
  unfold listUnion at h
  rcases List.mem_append.mp h with h1 | h2
  · exact Or.inl h1
  · exact Or.inr (List.mem_of_mem_filter h2)

theorem rdIns_mem {T : Type} [DecidableEq T]
    (solution : List (Nat × List T)) :
    ∀ (ps : List Nat) (acc ins : List T) (d : T),
      ps.foldlM (fun acc p => (alistGet? solution p).map
        (fun s => listUnion acc s)) acc = some ins →
      d ∈ ins → d ∈ acc ∨ ∃ p ∈ ps, d ∈ (alistGet? solution p).getD []
  | [], acc, ins, d, h, hd => by
    have h' : some acc = some ins := h
    cases h'
    exact Or.inl hd
  | p :: ps, acc, ins, d, h, hd => by
    rw [List.foldlM_cons] at h
    cases hg : alistGet? solution p with
    | none => rw [hg] at h; simp at h
    | some sl =>
      rw [hg] at h
      have h' : ps.foldlM (fun acc p => (alistGet? solution p).map
          (fun s => listUnion acc s)) (listUnion acc sl) = some ins := h
      rcases rdIns_mem solution ps (listUnion acc sl) ins d h' hd
        with h1 | ⟨q, hq, hdq⟩
      · rcases mem_listUnion h1 with h2 | h3
        · exact Or.inl h2
        · refine Or.inr ⟨p, List.mem_cons_self _ _, ?_⟩
          rw [hg]
          exact h3
      · exact Or.inr ⟨q, List.mem_cons_of_mem _ hq, hdq⟩

theorem killOf_some_instrValue {i : Instr} {k : String}
    (h : killOf i = some k) : ∃ v, instrValue i = some v := by
  cases i with
  | const dest ty value => exact ⟨_, rfl⟩
  | value dest op args funcs labels ty => exact ⟨_, rfl⟩
  | effect op args funcs labels => cases h

theorem lastKillAux_shape (blockIdx : Nat) (nm : String) :
    ∀ (instrs : List Instr) (acc : Option Definition) (d : Definition),
      lastKillAux blockIdx nm acc instrs = some d →
      acc = some d ∨ (d.name = nm ∧ d.block = blockIdx)
  | [], acc, d, h => Or.inl h
  | i :: rest, acc, d, h => by
    cases hk : killOf i with
    | none =>
      simp only [lastKillAux, hk] at h
      exact lastKillAux_shape blockIdx nm rest acc d h
    | some k =>
      obtain ⟨v, hv⟩ := killOf_some_instrValue hk
      simp only [lastKillAux, hk, hv] at h
      by_cases hkn : k = nm
      · rw [if_pos hkn] at h
        rcases lastKillAux_shape blockIdx nm rest _ d h with h1 | h2
        · have hd : (⟨nm, v, blockIdx⟩ : Definition) = d :=
            Option.some.inj h1
          rw [← hd]
          exact Or.inr ⟨rfl, rfl⟩
        · exact Or.inr h2
      · rw [if_neg hkn] at h
        exact lastKillAux_shape blockIdx nm rest acc d h

theorem lastKillAux_nokill (blockIdx : Nat) (nm : String) :
    ∀ (instrs : List Instr) (acc : Option Definition),
      (∀ i ∈ instrs, killOf i ≠ some nm) →
      lastKillAux blockIdx nm acc instrs = acc
  | [], acc, _ => rfl
  | i :: rest, acc, h => by
    have htail : ∀ j ∈ rest, killOf j ≠ some nm :=
      fun j hj => h j (List.mem_cons_of_mem _ hj)
    cases hk : killOf i with
    | none =>
      simp only [lastKillAux, hk]
      exact lastKillAux_nokill blockIdx nm rest acc htail
    | some k =>
      obtain ⟨v, hv⟩ := killOf_some_instrValue hk
      simp only [lastKillAux, hk, hv]
      rw [if_neg (fun hc => h i (List.mem_cons_self _ _)
        (hk.trans (by rw [hc])))]
      exact lastKillAux_nokill blockIdx nm rest acc htail

theorem lastKillAux_override (blockIdx : Nat) (nm : String) :
    ∀ (instrs : List Instr) (d : Definition),
      lastKillAux blockIdx nm none instrs = some d →
      ∀ acc, lastKillAux blockIdx nm acc instrs = some d
  | [], d, h, acc => by cases h
  | i :: rest, d, h, acc => by
    cases hk : killOf i with
    | none =>
      simp only [lastKillAux, hk] at h ⊢
      exact lastKillAux_override blockIdx nm rest d h acc
    | some k =>
      obtain ⟨v, hv⟩ := killOf_some_instrValue hk
      simp only [lastKillAux, hk, hv] at h ⊢
      by_cases hkn : k = nm
      · rw [if_pos hkn] at h ⊢
        exact h
      · rw [if_neg hkn] at h ⊢
        exact lastKillAux_override blockIdx nm rest d h acc

theorem blockKills_eq_false_iff (bb : BasicBlock) (nm : String) :
    blockKills bb nm = false ↔
      ∀ i ∈ bb.instructions, killOf i ≠ some nm := by
  unfold blockKills
  rw [List.any_eq_false]
  constructor
  · intro h i hi hc
    exact h i hi (by rw [hc]; simp)
  · intro h i hi hb
    exact h i hi (by simpa using hb)

theorem rdTransfer_mem (blockIdx : Nat) :
    ∀ (instrs : List Instr) (l : List Definition) (d : Definition),
      d ∈ instrs.foldl (rdTransferStep blockIdx) l →
      (d ∈ l ∧ ∀ i ∈ instrs, killOf i ≠ some d.name)
      ∨ lastKillAux blockIdx d.name none instrs = some d
  | [], l, d, hd =>
    Or.inl ⟨hd, fun i hi => absurd hi (List.not_mem_nil i)⟩
  | i :: rest, l, d, hd => by
    rw [List.foldl_cons] at hd
    rcases rdTransfer_mem blockIdx rest (rdTransferStep blockIdx l i) d hd
      with ⟨h1, h2⟩ | h3
    · unfold rdTransferStep at h1
      cases hk : killOf i with
      | none =>
        simp only [hk] at h1
        refine Or.inl ⟨h1, fun j hj => ?_⟩
        rcases List.mem_cons.mp hj with rfl | hj'
        · rw [hk]
          simp
        · exact h2 j hj'
      | some k =>
        obtain ⟨v, hv⟩ := killOf_some_instrValue hk
        simp only [hk, hv] at h1
        rcases List.mem_append.mp h1 with hf | hnew
        · have hmf := List.mem_filter.mp hf
          have hne : d.name ≠ k := by simpa using hmf.2
          refine Or.inl ⟨hmf.1, fun j hj => ?_⟩
          rcases List.mem_cons.mp hj with rfl | hj'
          · rw [hk]
            intro hc
            exact hne (Option.some.inj hc).symm
          · exact h2 j hj'
        · have hd' : d = ⟨k, v, blockIdx⟩ := by simpa using hnew
          right
          subst hd'
          simp only [lastKillAux, hk, hv]
          rw [if_pos trivial]
          exact lastKillAux_nokill blockIdx _ rest _ h2
    · right
      cases hk : killOf i with
      | none =>
        simp only [lastKillAux, hk]
        exact h3
      | some k =>
        obtain ⟨v, hv⟩ := killOf_some_instrValue hk
        simp only [lastKillAux, hk, hv]
        by_cases hkn : k = d.name
        · rw [if_pos hkn]
          exact lastKillAux_override blockIdx _ rest d h3 _
        · rw [if_neg hkn]
          exact lastKillAux_override blockIdx _ rest d h3 none

theorem constructPostorder_last (cfg : FunctionCfg) :
    ∃ l, constructPostorder cfg = l ++ [cfg.entry] :=
  ⟨_, rfl⟩

theorem forward_blocks_head (cfg : FunctionCfg) :
    ∃ rest, (constructPostorder cfg).reverse = cfg.entry :: rest := by
  obtain ⟨l, hl⟩ := constructPostorder_last cfg
  refine ⟨l.reverse, ?_⟩
  rw [hl, List.reverse_append]
  rfl

theorem solveDataflowGo_sound (cfg : FunctionCfg) :
    ∀ (fuel : Nat) (blocks : List Nat) (initialIn : List Definition)
      (solution out : List (Nat × List Definition)),
      solveDataflowGo cfg .forward listUnion rdTransfer fuel blocks
        initialIn solution = some out →
      (∀ b d, d ∈ (alistGet? solution b).getD [] → DefReaches cfg d b) →
      (initialIn = [] ∨
        ((∀ d ∈ initialIn, d.value = .argument ∧ d.block = cfg.entry)
          ∧ blocks.head? = some cfg.entry)) →
      ∀ b d, d ∈ (alistGet? out b).getD [] → DefReaches cfg d b
  | 0, blocks, initialIn, solution, out, h, _, _ => by
    simp [solveDataflowGo] at h
  | fuel + 1, [], initialIn, solution, out, h, hsol, _ => by
    have h' : some solution = some out := h
    cases h'
    exact hsol
  | fuel + 1, current :: blocks, initialIn, solution, out, h, hsol,
      hinit => by
    simp only [solveDataflowGo] at h
    cases hins : (cfg.predecessors current).foldlM
        (fun acc p => (alistGet? solution p).map
          (fun s => listUnion acc s)) initialIn with
    | none => rw [hins] at h; simp at h
    | some ins =>
      rw [hins] at h
      cases hprev : alistGet? solution current with
      | none => rw [hprev] at h; simp at h
      | some previousOut =>
        rw [hprev] at h
        cases hblk : cfg.getVertex current with
        | none => rw [hblk] at h; simp at h
        | some block =>
          rw [hblk] at h
          simp only [Option.bind_eq_bind, Option.some_bind] at h
          by_cases hcmp : listSetEq (rdTransfer block current ins)
              previousOut = true
          · rw [if_pos hcmp] at h
            exact solveDataflowGo_sound cfg fuel blocks [] solution out h
              hsol (Or.inl rfl)
          · rw [if_neg hcmp] at h
            refine solveDataflowGo_sound cfg fuel
              (blocks ++ cfg.successors current) []
              (alistInsert solution current (rdTransfer block current ins))
              out h ?_ (Or.inl rfl)
            intro b d hd
            rw [alistGet?_insert] at hd
            by_cases hbc : b = current
            · rw [if_pos hbc] at hd
              subst hbc
              have hd' : d ∈ rdTransfer block b ins := hd
              rcases rdTransfer_mem b block.instructions ins d hd'
                with ⟨hin, hnokill⟩ | hlast
              · have hnk : blockKills block d.name = false :=
                  (blockKills_eq_false_iff block d.name).mpr hnokill
                rcases rdIns_mem solution (cfg.predecessors b) initialIn
                    ins d hins hin with hInit | ⟨p, hp, hdp⟩
                · rcases hinit with hnil | ⟨hargs, hhead⟩
                  · rw [hnil] at hInit
                    cases hInit
                  · obtain ⟨hval, hblk'⟩ := hargs d hInit
                    have hcur : b = cfg.entry := by simpa using hhead
                    rw [hcur]
                    exact DefReaches.arg block hval hblk'
                      (by rw [← hcur]; exact hblk) hnk
                · exact DefReaches.step p b block (hsol p d hdp) hp hblk
                    hnk
              · rcases lastKillAux_shape b d.name block.instructions none
                    d hlast with h1 | ⟨_, hdb⟩
                · cases h1
                · rw [← hdb]
                  exact DefReaches.here block (by rw [hdb]; exact hblk)
                    (by rw [hdb]; exact hlast)
            · rw [if_neg hbc] at hd
              exact hsol b d hd

/-- C6:  Soundness of the reaching-definitions solution: whenever the
worklist solver of `solve_dataflow` (forward direction, union merge, the
kill-then-insert transfer, entry-argument pseudo-definitions seeded at the
entry) terminates, every definition it reports at a block is justified by a
reverse-CFG path to its definition block on which no later node rewrites
the name, the definition being the last write of its name in that block —
with argument pseudo-definitions counted as defined at the entry. -/
theorem c6_reaching_definitions_sound (cfg : FunctionCfg) (fuel : Nat)
    (sol : List (Nat × List Definition)) (b : Nat) (d : Definition)
    (h : computeReachingDefinitions cfg fuel = some sol)
    (hd : d ∈ (alistGet? sol b).getD []) :
    DefReaches cfg d b := by
  simp only [computeReachingDefinitions, solveDataflow] at h
  refine solveDataflowGo_sound cfg fuel _ _ _ sol h ?_ ?_ b d hd
  · intro b' d' hd'
    cases hg : alistGet? (cfg.vertices.map
        (fun p => (p.1, ([] : List Definition)))) b' with
    | none =>
      rw [hg] at hd'
      cases hd'
    | some l =>
      rw [hg] at hd'
      obtain ⟨p, hp, hpe⟩ := List.mem_map.mp (mem_of_alistGet?_eq_some hg)
      cases hpe
      cases hd'
  · refine Or.inr ⟨?_, ?_⟩
    · intro d' hd'
      obtain ⟨a, ha, hae⟩ := List.mem_map.mp hd'
      rw [← hae]
      exact ⟨rfl, rfl⟩
    · obtain ⟨rest, hrest⟩ := forward_blocks_head cfg
      rw [hrest]
      rfl

/-- Witness: on `rdWitnessCfg`, the solver reports the definition
`y = const 1` (made in block 0) as reaching block 1, and it is indeed
path-justified. -/
theorem c6_reaching_definitions_sound_witness :
    ∃ sol, computeReachingDefinitions rdWitnessCfg 10 = some sol
      ∧ DefReaches rdWitnessCfg ⟨"y", .constant "1" false, 0⟩ 1 :=
  ⟨_, rfl, c6_reaching_definitions_sound rdWitnessCfg 10 _ 1
    ⟨"y", .constant "1" false, 0⟩ rfl (by decide)⟩

end Cs6120
